import Mathlib

/-!
Verification of the Ominimo motor-insurance price-repair pipeline.

This file is a shallow embedding, in Lean 4, of the Python modules
`pricing_model.py`, `pricing_rules.py`, `pricing_validator.py` and
`geo_pricing.py`.  Python `float` arithmetic is modelled by exact rational
arithmetic (`ℚ`); Python `dict`s (which preserve insertion order) are
modelled by association lists with first-occurrence lookup and
replace-in-place update, which reproduces `dict` semantics for the key sets
arising in this program; raw string keys are modelled as `List Char`.
All definitions are translated from the source; the one exception,
`AcceptedShape`, follows the specification's wording of the accepted key
shapes and is compared with the parser taken from the source.
-/

set_option linter.unusedVariables false

namespace Ominimo

/-- Raw string keys are modelled as lists of characters. -/
abbrev Str := List Char

/-! ### Association lists (Python `dict` model) -/

/-- First-occurrence lookup, as in a Python `dict` (which has unique keys;
on lists with duplicated keys this picks the first binding). -/
def alistGet? {α β : Type} [DecidableEq α] : List (α × β) → α → Option β
  | [], _ => none
  | (k', v') :: t, k => if k' = k then some v' else alistGet? t k

/-- Replace the value at the first occurrence of `k`, keeping its position
(Python `dict` assignment keeps the original insertion position); if `k` is
absent, append the binding at the end (a fresh `dict` insertion). -/
def setVal {α β : Type} [DecidableEq α] : List (α × β) → α → β → List (α × β)
  | [], k, v => [(k, v)]
  | (k', v') :: t, k, v => if k' = k then (k, v) :: t else (k', v') :: setVal t k v

/-- Decidable equality for `Except`, so that concrete pipeline runs (which
return an `Except`) can be checked by `decide`. -/
instance exceptDecEq {ε α : Type} [DecidableEq ε] [DecidableEq α] :
    DecidableEq (Except ε α) := fun a b =>
  match a, b with
  | .error e, .error e' =>
    if h : e = e' then isTrue (by rw [h]) else isFalse (by intro hh; injection hh; contradiction)
  | .ok v, .ok v' =>
    if h : v = v' then isTrue (by rw [h]) else isFalse (by intro hh; injection hh; contradiction)
  | .error _, .ok _ => isFalse (fun hh => Except.noConfusion hh)
  | .ok _, .error _ => isFalse (fun hh => Except.noConfusion hh)

/-! ### Kernel-computable rational arithmetic

The standard `ℚ` operations `+ - * /` are `@[irreducible]` in this
toolchain, so concrete program runs could not be checked by `decide`.  The
embedding therefore computes with the following operations, each proved
equal to the corresponding standard operation (`qAdd_eq` …), so every
lemma can still be stated and proved over ordinary rational arithmetic. -/

def qAdd (a b : ℚ) : ℚ :=
  Rat.divInt (a.num * (b.den : ℤ) + b.num * (a.den : ℤ)) ((a.den : ℤ) * (b.den : ℤ))

def qSub (a b : ℚ) : ℚ :=
  Rat.divInt (a.num * (b.den : ℤ) - b.num * (a.den : ℤ)) ((a.den : ℤ) * (b.den : ℤ))

def qMul (a b : ℚ) : ℚ := Rat.divInt (a.num * b.num) ((a.den : ℤ) * (b.den : ℤ))

def qDiv (a b : ℚ) : ℚ := Rat.divInt (a.num * (b.den : ℤ)) ((a.den : ℤ) * b.num)

def qAbs (a : ℚ) : ℚ := if a.num < 0 then Rat.divInt (-a.num) (a.den : ℤ) else a

/-- `x ** n` on a rational base and integral exponent. -/
def qPowNat (a : ℚ) : Nat → ℚ
  | 0 => 1
  | n + 1 => qMul a (qPowNat a n)

def qZpow (a : ℚ) : ℤ → ℚ
  | .ofNat n => qPowNat a n
  | .negSucc n => qDiv 1 (qPowNat a (n + 1))

/-! ### Commercial-grid rounding (`pricing_validator.round_to_step`)

Python's builtin `round` rounds halves to the nearest even integer; we model
it exactly on `ℚ`. -/

/-- Python's builtin `round` on a rational: nearest integer, ties to even.
(`Rat.floor` rather than `⌊·⌋` keeps the definition kernel-computable; the
two agree, see `ratFloor_eq_intFloor`.) -/
def pyRound (q : ℚ) : ℤ :=
  if qSub q (q.floor : ℚ) < mkRat 1 2 then q.floor
  else if mkRat 1 2 < qSub q (q.floor : ℚ) then q.floor + 1
  else if 2 ∣ q.floor then q.floor else q.floor + 1

/-- `round_to_step` from `pricing_validator.py` with the default step 10:
`step * round(value / step)`. -/
def roundToStep (q : ℚ) : ℚ := qMul 10 ((pyRound (qDiv q 10) : ℤ) : ℚ)

/-- Values produced by `round_to_step` are multiples of 10. -/
def IsGrid (q : ℚ) : Prop := ∃ n : ℤ, q = 10 * (n : ℚ)

/-! ### Structured keys (`pricing_model.PriceKey`) -/

/-- `PriceKey` from `pricing_model.py`: product, optional variant, optional
deductible. -/
structure PriceKey where
  product : Str
  variant : Option Str := none
  deductible : Option Int := none
deriving DecidableEq

def mtplStr : Str := "mtpl".data
def limitedStr : Str := "limited_casco".data
def cascoStr : Str := "casco".data
def compactStr : Str := "compact".data
def basicStr : Str := "basic".data
def comfortStr : Str := "comfort".data
def premiumStr : Str := "premium".data

def mtplKey : PriceKey := ⟨mtplStr, none, none⟩

/-- `PRODUCT_RANK` from `pricing_model.py`.  In Python this is a dict
accessed with `[]`; `price_key_rank` only ever applies it to products that
occur in generated constraints, all of which are one of the three known
products, so the default 0 branch is unreachable there. -/
def PRODUCT_RANK (p : Str) : ℤ :=
  if p = mtplStr then 0
  else if p = limitedStr then 1
  else if p = cascoStr then 2
  else 0

/-- `VARIANT_RANK` from `pricing_model.py` (`.get(variant, 0)` semantics). -/
def VARIANT_RANK (v : Option Str) : ℤ :=
  match v with
  | none => 0
  | some s =>
    if s = compactStr then 1
    else if s = basicStr then 1
    else if s = comfortStr then 2
    else if s = premiumStr then 3
    else 0

/-- `DEDUCTIBLE_RANK` from `pricing_model.py` (`.get(deductible, 0)`). -/
def DEDUCTIBLE_RANK (d : Option Int) : ℤ :=
  match d with
  | none => 0
  | some n =>
    if n = 500 then 1
    else if n = 200 then 2
    else if n = 100 then 3
    else 0

/-- `price_key_rank` from `pricing_model.py`. -/
def priceKeyRank (k : PriceKey) : ℤ :=
  PRODUCT_RANK k.product * 100 + VARIANT_RANK k.variant * 10 + DEDUCTIBLE_RANK k.deductible

/-- Rule descriptions.  The Python code attaches fixed description strings
to constraints; `classify_constraint` then decides "product" vs "variant"
by substring matching on those fixed strings.  We model each fixed string
by one constructor; the two constructors below that correspond to the
strings containing "mtpl must be cheaper" / "casco must be more expensive
than limited casco" are exactly the ones the classifier maps to "product". -/
inductive RuleDesc where
  /-- "MTPL must be cheaper than Limited Casco" -/
  | mtplMustBeCheaper
  /-- "Casco must be more expensive than Limited Casco for the same variant and deductible" -/
  | cascoMoreExpensiveThanLimited
  /-- "Comfort must be more expensive than Compact for {product} with deductible {d}" -/
  | comfortMoreThanCompact (product : Str) (deductible : Int)
  /-- "Comfort must be more expensive than Basic for {product} with deductible {d}" -/
  | comfortMoreThanBasic (product : Str) (deductible : Int)
  /-- "Premium must be more expensive than Comfort for {product} with deductible {d}" -/
  | premiumMoreThanComfort (product : Str) (deductible : Int)
deriving DecidableEq

/-- `Constraint` from `pricing_model.py`: `prices[left] < prices[right]`. -/
structure Constraint where
  left : PriceKey
  right : PriceKey
  description : RuleDesc
deriving DecidableEq

/-! ### Python `int()` conversion on strings

`PriceKey.from_str` converts the trailing key segment with `int(...)`,
which strips surrounding whitespace, allows one leading sign, and accepts
single underscores between (ASCII) digits. -/

/-- Whitespace characters stripped by Python's `int()`. -/
def isPyWS (c : Char) : Bool :=
  c = ' ' || c = '\t' || c = '\n' || c = '\x0d' || c = '\x0b' || c = '\x0c'

/-- Strip leading and trailing whitespace. -/
def stripWS (l : Str) : Str :=
  ((l.dropWhile isPyWS).reverse.dropWhile isPyWS).reverse

/-- Numeric value of a digit character. -/
def charDigit (c : Char) : Nat := c.toNat - 48

/-- Digit characters by value (0-9). -/
def digitChar (d : Nat) : Char :=
  match d with
  | 0 => '0' | 1 => '1' | 2 => '2' | 3 => '3' | 4 => '4'
  | 5 => '5' | 6 => '6' | 7 => '7' | 8 => '8' | 9 => '9'
  | _ => '0'

/-- Continuation of Python's digit grammar after the first digit: digits,
with single underscores allowed only between digits. -/
def digitsValGo (acc : Nat) : Str → Option Nat
  | [] => some acc
  | c :: cs =>
    if c = '_' then
      match cs with
      | [] => none
      | c2 :: cs2 =>
        if c2.isDigit then digitsValGo (10 * acc + charDigit c2) cs2 else none
    else if c.isDigit then digitsValGo (10 * acc + charDigit c) cs
    else none

/-- Python's digit-sequence grammar: at least one digit, underscores only
between digits. -/
def digitsValStart : Str → Option Nat
  | [] => none
  | c :: cs => if c.isDigit then digitsValGo (charDigit c) cs else none

/-- Sign handling of Python's `int(s)` after whitespace stripping. -/
def pyParseIntCore : Str → Option Int
  | [] => none
  | c :: cs =>
    if c = '+' then
      match digitsValStart cs with
      | some n => some ((n : Int))
      | none => none
    else if c = '-' then
      match digitsValStart cs with
      | some n => some (-(n : Int))
      | none => none
    else
      match digitsValStart (c :: cs) with
      | some n => some ((n : Int))
      | none => none

/-- Python's `int(s)` on a string, returning `none` where Python raises
`ValueError`. -/
def pyParseInt (l0 : Str) : Option Int := pyParseIntCore (stripWS l0)

/-- Decimal digits of a natural number, most significant first, with an
explicit recursion budget (structural recursion keeps the definition
kernel-computable; any `fuel > m` yields the digits of `m`). -/
def natToCharsAux : Nat → Nat → Str
  | 0, _ => []
  | fuel + 1, m =>
    if m < 10 then [digitChar m]
    else natToCharsAux fuel (m / 10) ++ [digitChar (m % 10)]

/-- Decimal digits of a natural number, most significant first
(Python `str(n)` for `n ≥ 0`). -/
def natToChars (m : Nat) : Str := natToCharsAux (m + 1) m

/-- Python `str(d)` for an integer `d`. -/
def intToChars (d : Int) : Str :=
  if d < 0 then '-' :: natToChars d.natAbs else natToChars d.toNat

/-! ### `PriceKey.from_str` / `PriceKey.to_str` (`pricing_model.py`) -/

/-- Drop `p` from the front of `l`; `none` when `p` is not a prefix of `l`
(models Python's `startswith` test plus the subsequent slicing implied by
`split`). -/
def dropPrefixQ : Str → Str → Option Str
  | [], l => some l
  | _, [] => none
  | p :: ps, c :: cs => if c = p then dropPrefixQ ps cs else none

/-- Split at the first underscore: `some (before, after)`, or `none` when
there is no underscore.  Together with `dropPrefixQ`, this models Python's
`raw_key.split("_", maxsplit)` with the fixed leading segments checked via
`startswith`: after the known prefix, the next segment runs to the next
underscore and the remainder is kept whole. -/
def splitFirstUnder : Str → Option (Str × Str)
  | [] => none
  | c :: cs =>
    if c = '_' then some ([], cs)
    else (splitFirstUnder cs).map (fun p => (c :: p.1, p.2))

def limitedUnderStr : Str := "limited_casco_".data
def cascoUnderStr : Str := "casco_".data

/-- One prefixed branch of `PriceKey.from_str`: after the known prefix, the
variant runs to the next underscore and the remainder must convert with
`int(...)`; fewer segments than expected raise the caught `ValueError`. -/
def fromStrSeg (product : Str) (tail : Str) : Option PriceKey :=
  match splitFirstUnder tail with
  | some (v, dstr) => (pyParseInt dstr).map (fun d => ⟨product, some v, some d⟩)
  | none => none

/-- `PriceKey.from_str` from `pricing_model.py`; `none` models a raised
`ValueError`. -/
def fromStr (raw : Str) : Option PriceKey :=
  if raw = mtplStr then some mtplKey
  else
    match dropPrefixQ limitedUnderStr raw with
    | some tail => fromStrSeg limitedStr tail
    | none =>
      match dropPrefixQ cascoUnderStr raw with
      | some tail => fromStrSeg cascoStr tail
      | none => none

/-- Modelled from the spec's wording of the Key Model: the three accepted
raw-key shapes — `"mtpl"`, `"limited_casco_<variant>_<deductible>"`,
`"casco_<variant>_<deductible>"` — where the variant segment is the text up
to the next underscore and the trailing deductible segment must parse as a
Python integer.  This is the refinement-side definition compared against
`fromStr`, which is translated from the source. -/
def AcceptedShape (raw : Str) : Prop :=
  raw = mtplStr ∨
  (∃ v d, raw = limitedUnderStr ++ v ++ '_' :: d ∧ '_' ∉ v ∧ (pyParseInt d).isSome = true) ∨
  (∃ v d, raw = cascoUnderStr ++ v ++ '_' :: d ∧ '_' ∉ v ∧ (pyParseInt d).isSome = true)

/-- The structural invariant of every key `fromStr` can produce. -/
def ParsedShape (k : PriceKey) : Prop :=
  k = mtplKey ∨
  (∃ v d, k = ⟨limitedStr, some v, some d⟩ ∧ '_' ∉ v) ∨
  (∃ v d, k = ⟨cascoStr, some v, some d⟩ ∧ '_' ∉ v)

/-- `PriceKey.to_str` from `pricing_model.py`; `none` models the
`ValueError` raised on an incomplete non-mtpl key. -/
def toStr (k : PriceKey) : Option Str :=
  if k.product = mtplStr then some mtplStr
  else
    match k.variant, k.deductible with
    | some v, some d => some (k.product ++ '_' :: v ++ '_' :: intToChars d)
    | _, _ => none

/-- Serialization with the unreachable-error branch defaulted (used in the
final pipeline step, where every key has been produced by `fromStr` and the
error branch is provably dead). -/
def toStrD (k : PriceKey) : Str := (toStr k).getD []

/-! ### Price tables and correction log entries -/

/-- A keyed price table (`Dict[PriceKey, float]`). -/
abbrev Table := List (PriceKey × ℚ)

/-- `prices_by_key[k]`; the `.getD 0` default models Python's `KeyError`
branch, which is unreachable on every state the pipeline builds (all
constraint endpoints exist in the table). -/
def price (T : Table) (k : PriceKey) : ℚ := (alistGet? T k).getD 0

def hasKey (T : Table) (k : PriceKey) : Bool := (alistGet? T k).isSome

/-- Entries of the `issues` / change-log lists.  The Python code logs
formatted strings; each entry's data (which key changed, old and new price,
rule and margin or anchor used) is modelled structurally. -/
inductive Issue where
  /-- "Aligned {key} from {old} to {new} to enforce deductible ladder … using base {base}={basePrice}". -/
  | aligned (key : PriceKey) (oldPrice newPrice : ℚ) (baseKey : PriceKey) (basePrice : ℚ)
  /-- "Adjusted {key} from {old} to {new} to satisfy rule: {rule} with at least {margin} premium over {left} (={leftPrice})". -/
  | adjusted (key : PriceKey) (oldPrice newPrice : ℚ) (rule : RuleDesc)
      (margin : ℚ) (leftKey : PriceKey) (leftPrice : ℚ)
deriving DecidableEq

def Issue.key : Issue → PriceKey
  | .aligned k _ _ _ _ => k
  | .adjusted k _ _ _ _ _ _ => k

def Issue.oldPrice : Issue → ℚ
  | .aligned _ o _ _ _ => o
  | .adjusted _ o _ _ _ _ _ => o

def Issue.newPrice : Issue → ℚ
  | .aligned _ _ n _ _ => n
  | .adjusted _ _ n _ _ _ _ => n

/-- Whether an entry was produced by the repair pass (as opposed to the
deductible normalization). -/
def Issue.isRepair : Issue → Bool
  | .aligned _ _ _ _ _ => false
  | .adjusted _ _ _ _ _ _ _ => true

/-! ### Business constants (`pricing_rules.py` / `pricing_validator.py`) -/

def PRODUCTS_WITH_VARIANTS : List Str := [limitedStr, cascoStr]
def VARIANTS : List Str := [compactStr, basicStr, comfortStr, premiumStr]
def DEDUCTIBLES : List Int := [100, 200, 500]

def PRODUCT_MARGIN : ℚ := mkRat 1 10
def VARIANT_MARGIN : ℚ := mkRat 1 20

/-- The `1e-6` tolerance used by both the normalizer and the repair pass. -/
def TOL : ℚ := mkRat 1 1000000

/-- `DEDUCTIBLE_DISCOUNTS` from `pricing_validator.py` (the dict is only
indexed at 100/200/500). -/
def DEDUCTIBLE_DISCOUNTS (d : Int) : ℚ :=
  if d = 100 then 1 else if d = 200 then mkRat 9 10 else if d = 500 then mkRat 4 5 else 0

/-! ### Constraint generation (`pricing_rules.build_constraints`) -/

/-- `_add_product_level_constraints`: MTPL below every limited_casco key
present, and each limited_casco key below the casco key with the same
variant and deductible when that key exists.  Iteration over `prices_by_key`
is iteration over the table's keys in insertion order. -/
def productLevelConstraints (T : Table) : List Constraint :=
  (if hasKey T mtplKey then
    (T.map Prod.fst).filterMap (fun k =>
      if k.product = limitedStr then some ⟨mtplKey, k, .mtplMustBeCheaper⟩ else none)
   else []) ++
  (T.map Prod.fst).filterMap (fun k =>
    if k.product = limitedStr then
      if hasKey T ⟨cascoStr, k.variant, k.deductible⟩ then
        some ⟨k, ⟨cascoStr, k.variant, k.deductible⟩, .cascoMoreExpensiveThanLimited⟩
      else none
    else none)

/-- One (product, deductible) slice of `_add_variant_level_constraints`. -/
def variantSlice (T : Table) (p : Str) (d : Int) : List Constraint :=
  (if hasKey T ⟨p, some compactStr, some d⟩ && hasKey T ⟨p, some comfortStr, some d⟩ then
    [⟨⟨p, some compactStr, some d⟩, ⟨p, some comfortStr, some d⟩, .comfortMoreThanCompact p d⟩]
   else []) ++
  (if hasKey T ⟨p, some basicStr, some d⟩ && hasKey T ⟨p, some comfortStr, some d⟩ then
    [⟨⟨p, some basicStr, some d⟩, ⟨p, some comfortStr, some d⟩, .comfortMoreThanBasic p d⟩]
   else []) ++
  (if hasKey T ⟨p, some comfortStr, some d⟩ && hasKey T ⟨p, some premiumStr, some d⟩ then
    [⟨⟨p, some comfortStr, some d⟩, ⟨p, some premiumStr, some d⟩, .premiumMoreThanComfort p d⟩]
   else [])

def variantLevelConstraints (T : Table) : List Constraint :=
  PRODUCTS_WITH_VARIANTS.flatMap fun p => DEDUCTIBLES.flatMap fun d => variantSlice T p d

/-- `build_constraints` from `pricing_rules.py`. -/
def buildConstraints (T : Table) : List Constraint :=
  productLevelConstraints T ++ variantLevelConstraints T

/-! ### Deductible normalization (`apply_deductible_structure`) -/

/-- Body of the inner `for deductible in deductibles` loop.  `basePrice` is
read once before the loop, exactly as in the Python code. -/
def normDedStep (baseKey : PriceKey) (basePrice : ℚ) (p v : Str)
    (st : Table × List Issue) (d : Int) : Table × List Issue :=
  match alistGet? st.1 ⟨p, some v, some d⟩ with
  | none => st
  | some oldPrice =>
    if TOL < qAbs (qSub (roundToStep (qMul basePrice (DEDUCTIBLE_DISCOUNTS d))) oldPrice) then
      (setVal st.1 ⟨p, some v, some d⟩ (roundToStep (qMul basePrice (DEDUCTIBLE_DISCOUNTS d))),
       st.2 ++ [.aligned ⟨p, some v, some d⟩ oldPrice
                  (roundToStep (qMul basePrice (DEDUCTIBLE_DISCOUNTS d))) baseKey basePrice])
    else st

/-- Body of the `for variant in variants` loop: skip pairs without a
100-deductible anchor, otherwise rebuild the ladder from the anchor. -/
def normPair (st : Table × List Issue) (pv : Str × Str) : Table × List Issue :=
  match alistGet? st.1 ⟨pv.1, some pv.2, some 100⟩ with
  | none => st
  | some basePrice =>
    DEDUCTIBLES.foldl (normDedStep ⟨pv.1, some pv.2, some 100⟩ basePrice pv.1 pv.2) st

/-- The (product, variant) pairs visited, product-major, in source order. -/
def NORM_PAIRS : List (Str × Str) :=
  PRODUCTS_WITH_VARIANTS.flatMap fun p => VARIANTS.map fun v => (p, v)

/-- `apply_deductible_structure` from `pricing_validator.py`: in-place
ladder rebuild plus its change log. -/
def applyDeductibleStructure (T : Table) : Table × List Issue :=
  NORM_PAIRS.foldl normPair (T, [])

/-! ### Repair pass (`validate_and_fix_prices`) -/

inductive ConstraintKind where
  | product
  | variant
deriving DecidableEq

/-- `classify_constraint`: the fixed description strings that contain
"mtpl must be cheaper" or "casco must be more expensive than limited casco"
(after lowercasing) are product-level; every other description generated by
`build_constraints` is variant-level. -/
def classifyConstraint : RuleDesc → ConstraintKind
  | .mtplMustBeCheaper => .product
  | .cascoMoreExpensiveThanLimited => .product
  | _ => .variant

def marginOf (c : Constraint) : ℚ :=
  if classifyConstraint c.description = ConstraintKind.product then PRODUCT_MARGIN
  else VARIANT_MARGIN

/-- One iteration of the repair loop in `validate_and_fix_prices`:
`required_min_price = left_price * (1 + margin)`, and if the right side is
below it (beyond the `1e-6` tolerance) it is lifted onto the rounding grid
and the change is logged. -/
def repairStep (st : Table × List Issue) (c : Constraint) : Table × List Issue :=
  if price st.1 c.right < qSub (qMul (price st.1 c.left) (qAdd 1 (marginOf c))) TOL then
    (setVal st.1 c.right (roundToStep (qMul (price st.1 c.left) (qAdd 1 (marginOf c)))),
     st.2 ++ [.adjusted c.right (price st.1 c.right)
                (roundToStep (qMul (price st.1 c.left) (qAdd 1 (marginOf c))))
                c.description (marginOf c) c.left (price st.1 c.left)])
  else st

/-- Stable insertion for the sort by `price_key_rank(c.left)`: an element
is placed after every element of equal rank, which reproduces the
stability of Python's `sorted`. -/
def insRank (x : Constraint) : List Constraint → List Constraint
  | [] => [x]
  | y :: ys =>
    if priceKeyRank y.left ≤ priceKeyRank x.left then y :: insRank x ys
    else x :: y :: ys

/-- `sorted(constraints, key=lambda c: price_key_rank(c.left))`. -/
def sortByRank (l : List Constraint) : List Constraint :=
  l.foldl (fun acc x => insRank x acc) []

/-- Steps 2-4 of `validate_and_fix_prices` on an already-parsed table:
deductible normalization, constraint generation, rank-ordered repair.
Returns the final keyed table and the combined issue log (normalization
messages first). -/
def fixKeyed (T : Table) : Table × List Issue :=
  (sortByRank (buildConstraints (applyDeductibleStructure T).1)).foldl repairStep
    (applyDeductibleStructure T)

/-- Step 1 of `validate_and_fix_prices`: the dict comprehension
`{PriceKey.from_str(key): float(value) for key, value in raw_prices.items()}`,
which fails on the first unparseable key. -/
def parseTableGo (acc : Table) : List (Str × ℚ) → Except Str Table
  | [] => .ok acc
  | (s, v) :: rest =>
    match fromStr s with
    | none => .error s
    | some k => parseTableGo (setVal acc k v) rest

def parseTable (l : List (Str × ℚ)) : Except Str Table := parseTableGo [] l

/-- Step 5 of `validate_and_fix_prices`: serialize the keyed table back to
flat string keys. -/
def serializeTable (T : Table) : List (Str × ℚ) := T.map fun kv => (toStrD kv.1, kv.2)

/-- `validate_and_fix_prices` from `pricing_validator.py`.  An `Except.error`
models the propagated `ValueError` of `PriceKey.from_str`. -/
def validate (raw : List (Str × ℚ)) : Except Str (List (Str × ℚ) × List Issue) :=
  match parseTable raw with
  | .error e => .error e
  | .ok K => .ok (serializeTable (fixKeyed K).1, (fixKeyed K).2)

/-! ### Geo-pricing collaborator (`geo_pricing.py`) -/

/-- `round_to_step` from `geo_pricing.py` (half rounds up, default step 5):
`floor(value/step)` plus one when the fractional part reaches one half. -/
def geoRoundToStep (value step : ℚ) : ℚ :=
  if qSub (qDiv value step) ((qDiv value step).floor : ℚ) < mkRat 1 2 then
    qMul ((qDiv value step).floor : ℚ) step
  else qMul (qAdd ((qDiv value step).floor : ℚ) 1) step

/-- `compute_country_factors` from `geo_pricing.py`:
`factor[c] = (wage[c] / wage[ref]) ** alpha`.  The exponent is modelled as
an integer, which agrees with Python `**` for the integral `alpha = 1` used
in the claims; the `.getD 0` default models the `KeyError` on a missing
reference country, unreachable when the reference is present. -/
def computeCountryFactors (wages : List (String × ℚ)) (ref : String)
    (alpha : ℤ) : List (String × ℚ) :=
  wages.map fun cw => (cw.1, qZpow (qDiv cw.2 ((alistGet? wages ref).getD 0)) alpha)

/-- `adjust_prices_for_country` from `geo_pricing.py`: multiply every price
by `factors.get(country, 1.0)` and round to the nearest 5. -/
def adjustPricesForCountry (basePrices : List (String × ℚ)) (country : String)
    (factors : List (String × ℚ)) : List (String × ℚ) :=
  basePrices.map fun kv =>
    (kv.1, geoRoundToStep (qMul kv.2 ((alistGet? factors country).getD 1)) 5)

/-! ## Lemma development

All definitions above are the embedding; everything below proves
properties about them. -/

/-! ### Association-list lemmas -/

theorem alistGet?_setVal_self {α β : Type} [DecidableEq α]
    (l : List (α × β)) (k : α) (v : β) : alistGet? (setVal l k v) k = some v := by
  induction l with
  | nil => simp [setVal, alistGet?]
  | cons h t ih =>
    obtain ⟨k', v'⟩ := h
    by_cases hk : k' = k
    · simp [setVal, hk, alistGet?]
    · simp [setVal, hk, alistGet?, ih]

theorem alistGet?_setVal_ne {α β : Type} [DecidableEq α]
    (l : List (α × β)) (k k' : α) (v : β) (h : k' ≠ k) :
    alistGet? (setVal l k v) k' = alistGet? l k' := by
  have hne : k ≠ k' := fun e => h e.symm
  induction l with
  | nil => simp [setVal, alistGet?, hne]
  | cons hd t ih =>
    obtain ⟨k₀, v₀⟩ := hd
    by_cases hk : k₀ = k
    · subst hk
      simp [setVal, alistGet?, hne]
    · simp [setVal, hk, alistGet?, ih]

theorem mapFst_setVal_of_mem {α β : Type} [DecidableEq α]
    (l : List (α × β)) (k : α) (v : β) (h : k ∈ l.map Prod.fst) :
    (setVal l k v).map Prod.fst = l.map Prod.fst := by
  induction l with
  | nil => simp at h
  | cons hd t ih =>
    obtain ⟨k₀, v₀⟩ := hd
    by_cases hk : k₀ = k
    · simp [setVal, hk]
    · simp only [List.map_cons, List.mem_cons] at h
      rcases h with h | h


      · exact absurd h.symm hk
      · simp [setVal, hk, ih h]

theorem mem_mapFst_of_get?_some {α β : Type} [DecidableEq α]
    {l : List (α × β)} {k : α} {v : β} (h : alistGet? l k = some v) :
    k ∈ l.map Prod.fst := by
  induction l with
  | nil => simp [alistGet?] at h
  | cons hd t ih =>
    obtain ⟨k₀, v₀⟩ := hd
    by_cases hk : k₀ = k
    · simp [hk]
    · simp only [alistGet?, hk, if_false] at h
      simp [ih h]

/-! ### Agreement of the computable rational operations -/

theorem mkRat_eq_q (n : ℤ) (d : ℕ) : (mkRat n d : ℚ) = (n : ℚ) / (d : ℚ) := by
  rw [Rat.mkRat_eq_divInt, Rat.divInt_eq_div]
  norm_cast

theorem qAdd_eq (a b : ℚ) : qAdd a b = a + b := by
  unfold qAdd
  have ha : ((a.den : ℚ)) ≠ 0 := Nat.cast_ne_zero.mpr a.den_nz
  have hb : ((b.den : ℚ)) ≠ 0 := Nat.cast_ne_zero.mpr b.den_nz
  rw [Rat.divInt_eq_div]
  push_cast
  conv_rhs => rw [← Rat.num_div_den a, ← Rat.num_div_den b]
  field_simp

theorem qSub_eq (a b : ℚ) : qSub a b = a - b := by
  unfold qSub
  have ha : ((a.den : ℚ)) ≠ 0 := Nat.cast_ne_zero.mpr a.den_nz
  have hb : ((b.den : ℚ)) ≠ 0 := Nat.cast_ne_zero.mpr b.den_nz
  rw [Rat.divInt_eq_div]
  push_cast
  conv_rhs => rw [← Rat.num_div_den a, ← Rat.num_div_den b]
  field_simp
  all_goals ring

theorem qMul_eq (a b : ℚ) : qMul a b = a * b := by
  unfold qMul
  have ha : ((a.den : ℚ)) ≠ 0 := Nat.cast_ne_zero.mpr a.den_nz
  have hb : ((b.den : ℚ)) ≠ 0 := Nat.cast_ne_zero.mpr b.den_nz
  rw [Rat.divInt_eq_div]
  push_cast
  conv_rhs => rw [← Rat.num_div_den a, ← Rat.num_div_den b]
  field_simp

theorem qDiv_eq (a b : ℚ) : qDiv a b = a / b := by
  unfold qDiv
  by_cases hb : b = 0
  · subst hb
    simp [Rat.divInt_eq_div]
  · have ha : ((a.den : ℚ)) ≠ 0 := Nat.cast_ne_zero.mpr a.den_nz
    have hbd : ((b.den : ℚ)) ≠ 0 := Nat.cast_ne_zero.mpr b.den_nz
    have hbn : ((b.num : ℚ)) ≠ 0 := by
      exact_mod_cast Rat.num_ne_zero.mpr hb
    rw [Rat.divInt_eq_div]
    push_cast
    conv_rhs => rw [← Rat.num_div_den a, ← Rat.num_div_den b]
    rw [div_div_div_comm]
    field_simp
    all_goals (left; ring)

theorem qAbs_eq (a : ℚ) : qAbs a = |a| := by
  unfold qAbs
  split
  · rename_i hneg
    have ha : a < 0 := by
      rw [← Rat.num_neg]
      exact_mod_cast hneg
    rw [abs_of_neg ha]
    rw [show Rat.divInt (-a.num) (a.den : ℤ) = -(Rat.divInt a.num (a.den : ℤ)) from
      Rat.neg_divInt a.num (a.den : ℤ) ▸ rfl]
    rw [Rat.num_divInt_den]
  · rename_i hpos
    have ha : 0 ≤ a := by
      rw [← Rat.num_nonneg]
      omega
    rw [abs_of_nonneg ha]

theorem qPowNat_eq (a : ℚ) (n : ℕ) : qPowNat a n = a ^ n := by
  induction n with
  | zero => simp [qPowNat]
  | succ n ih => rw [qPowNat, ih, qMul_eq, pow_succ, mul_comm]

theorem qZpow_eq (a : ℚ) (z : ℤ) : qZpow a z = a ^ z := by
  cases z with
  | ofNat n => rw [qZpow, qPowNat_eq, Int.ofNat_eq_coe, zpow_natCast]
  | negSucc n => rw [qZpow, qPowNat_eq, qDiv_eq, zpow_negSucc, one_div]

theorem mkRat_half : (mkRat 1 2 : ℚ) = 1/2 := by rw [mkRat_eq_q]; norm_num

/-! ### Rounding lemmas -/

theorem ratFloor_eq_intFloor (q : ℚ) : Rat.floor q = ⌊q⌋ :=
  le_antisymm (Int.le_floor.mpr (Rat.le_floor.mp (le_refl _)))
    (Rat.le_floor.mpr (Int.floor_le q))

theorem pyRound_le (q : ℚ) : (pyRound q : ℚ) ≤ q + 1/2 := by
  unfold pyRound
  rw [ratFloor_eq_intFloor]
  have hfl : (⌊q⌋ : ℚ) ≤ q := Int.floor_le q
  split
  · linarith
  · split
    · rename_i h1 h2
      rw [qSub_eq, mkRat_half] at h2
      push_cast
      linarith
    · rename_i h1 h2
      rw [qSub_eq, mkRat_half] at h1 h2
      split <;> (push_cast; linarith)

theorem le_pyRound (q : ℚ) : q - 1/2 ≤ (pyRound q : ℚ) := by
  unfold pyRound
  rw [ratFloor_eq_intFloor]
  have hfl : q < (⌊q⌋ : ℚ) + 1 := Int.lt_floor_add_one q
  split
  · rename_i h1
    rw [qSub_eq, mkRat_half] at h1
    linarith
  · split
    · push_cast; linarith
    · rename_i h1 h2
      rw [qSub_eq, mkRat_half] at h1 h2
      split <;> (push_cast; linarith)

theorem floor_le_pyRound (q : ℚ) : ⌊q⌋ ≤ pyRound q := by
  unfold pyRound
  rw [ratFloor_eq_intFloor]
  split
  · exact le_refl _
  · split
    · exact Int.le.intro 1 rfl
    · split
      · exact le_refl _
      · exact Int.le.intro 1 rfl

/-- `roundToStep` rewritten over the standard operations. -/
theorem roundToStep_eq (q : ℚ) : roundToStep q = 10 * ((pyRound (q / 10) : ℤ) : ℚ) := by
  unfold roundToStep
  rw [qMul_eq, qDiv_eq]

theorem roundToStep_ge (q : ℚ) : q - 5 ≤ roundToStep q := by
  have h := le_pyRound (q / 10)
  rw [roundToStep_eq]
  linarith

theorem roundToStep_le (q : ℚ) : roundToStep q ≤ q + 5 := by
  have h := pyRound_le (q / 10)
  rw [roundToStep_eq]
  linarith

theorem isGrid_roundToStep (q : ℚ) : IsGrid (roundToStep q) :=
  ⟨pyRound (q / 10), by rw [roundToStep_eq]⟩

theorem grid_le_roundToStep {n : ℤ} {q : ℚ} (h : 10 * (n : ℚ) ≤ q) :
    10 * (n : ℚ) ≤ roundToStep q := by
  have h1 : (n : ℚ) ≤ q / 10 := by linarith
  have h2 : n ≤ ⌊q / 10⌋ := Int.le_floor.mpr h1
  have h3 : n ≤ pyRound (q / 10) := le_trans h2 (floor_le_pyRound _)
  rw [roundToStep_eq]
  have : (n : ℚ) ≤ (pyRound (q / 10) : ℚ) := by exact_mod_cast h3
  linarith

theorem grid_gap {q q' : ℚ} (hq : IsGrid q) (hq' : IsGrid q') (h : q < q') :
    q + 10 ≤ q' := by
  obtain ⟨n, rfl⟩ := hq
  obtain ⟨m, rfl⟩ := hq'
  have hnm : n < m := by exact_mod_cast (by linarith : (n : ℚ) < m)
  have : (n : ℚ) + 1 ≤ m := by exact_mod_cast hnm
  linarith

theorem roundToStep_lt_roundToStep {x y : ℚ} (h : x + 10 < y) :
    roundToStep x < roundToStep y := by
  have h1 := roundToStep_le x
  have h2 := roundToStep_ge y
  linarith

/-! ### Price-table lemmas -/

theorem price_setVal_self (T : Table) (k : PriceKey) (v : ℚ) :
    price (setVal T k v) k = v := by
  simp [price, alistGet?_setVal_self]

theorem price_setVal_ne (T : Table) (k k' : PriceKey) (v : ℚ) (h : k' ≠ k) :
    price (setVal T k v) k' = price T k' := by
  simp [price, alistGet?_setVal_ne _ _ _ _ h]

/-! ### Repair-pass lemmas

The repair loop processes the constraint list sorted by the rank of the
left key.  Its key dynamic facts: a step writes only the right key of its
constraint; once a key's value is on the rounding grid, later writes never
lower it; and a write always lands within half a grid step below the
required minimum. -/

theorem repairStep_snd_prefix (st : Table × List Issue) (c : Constraint) :
    ∃ e, (repairStep st c).2 = st.2 ++ e ∧ (e = [] → repairStep st c = st) := by
  unfold repairStep
  split
  · exact ⟨_, rfl, by simp⟩
  · exact ⟨[], by simp, fun _ => rfl⟩

theorem repairStep_price_other {st : Table × List Issue} {c : Constraint} {k : PriceKey}
    (h : c.right ≠ k) : price (repairStep st c).1 k = price st.1 k := by
  unfold repairStep
  split
  · exact price_setVal_ne _ _ _ _ (fun e => h e.symm)
  · rfl

theorem repairFold_price_frozen (cs : List Constraint) (st : Table × List Issue)
    (k : PriceKey) (h : ∀ c ∈ cs, c.right ≠ k) :
    price (cs.foldl repairStep st).1 k = price st.1 k := by
  induction cs generalizing st with
  | nil => rfl
  | cons c rest ih =>
    rw [List.foldl_cons, ih _ (fun d hd => h d (List.mem_cons_of_mem _ hd))]
    exact repairStep_price_other (h c (List.mem_cons_self _ _))

/-- Core lower-bound invariant of the repair fold: if a key's value is on
the grid and at least `x - 5`, or is at least `x - TOL`, then after any
sequence of repair steps it is still at least `x - 5`. -/
theorem repairFold_lower_bound (cs : List Constraint) (st : Table × List Issue)
    (k : PriceKey) (x : ℚ)
    (h : (IsGrid (price st.1 k) ∧ x - 5 ≤ price st.1 k) ∨ x - TOL ≤ price st.1 k) :
    x - 5 ≤ price (cs.foldl repairStep st).1 k := by
  induction cs generalizing st with
  | nil =>
    simp only [List.foldl_nil]
    rcases h with ⟨_, h⟩ | h
    · exact h
    · have : (TOL : ℚ) ≤ 5 := by norm_num [TOL]
      linarith
  | cons c rest ih =>
    rw [List.foldl_cons]
    apply ih
    by_cases hck : c.right = k
    · subst hck
      unfold repairStep
      split
      · rename_i htrig
        rw [qSub_eq, qMul_eq, qAdd_eq] at htrig
        have htol : (0 : ℚ) < TOL := by rw [TOL, mkRat_eq_q]; norm_num
        rcases h with ⟨⟨n, hn⟩, hge⟩ | hge
        · refine Or.inl ⟨?_, ?_⟩
          · rw [price_setVal_self]; exact isGrid_roundToStep _
          · rw [price_setVal_self, qMul_eq, qAdd_eq]
            have hmid : 10 * (n : ℚ) ≤ price st.1 c.left * (1 + marginOf c) := by
              rw [hn] at htrig; linarith
            have := grid_le_roundToStep hmid
            linarith [hn ▸ hge]
        · refine Or.inl ⟨?_, ?_⟩
          · rw [price_setVal_self]; exact isGrid_roundToStep _
          · rw [price_setVal_self, qMul_eq, qAdd_eq]
            have hbelow := roundToStep_ge (price st.1 c.left * (1 + marginOf c))
            linarith
      · exact h
    · rw [repairStep_price_other hck]
      exact h

/-- After the repair fold over a rank-sorted constraint list whose members
all have left rank below right rank, every constraint in the list is
satisfied up to half a grid step below its margin requirement, evaluated at
the final prices. -/
theorem repairFold_margin_bound (cs : List Constraint) (st : Table × List Issue)
    (hsort : cs.Pairwise (fun a b => priceKeyRank a.left ≤ priceKeyRank b.left))
    (hlr : ∀ c ∈ cs, priceKeyRank c.left < priceKeyRank c.right) :
    ∀ c ∈ cs, price (cs.foldl repairStep st).1 c.left * (1 + marginOf c) - 5 ≤
      price (cs.foldl repairStep st).1 c.right := by
  induction cs generalizing st with
  | nil => intro c hc; simp at hc
  | cons d rest ih =>
    intro c hc
    rcases List.mem_cons.mp hc with rfl | hc
    · have hfreeze : ∀ e ∈ rest, e.right ≠ c.left := by
        intro e he heq
        have h1 : priceKeyRank e.left < priceKeyRank e.right :=
          hlr e (List.mem_cons_of_mem _ he)
        have h2 : priceKeyRank c.left ≤ priceKeyRank e.left :=
          (List.pairwise_cons.mp hsort).1 e he
        rw [heq] at h1
        omega
      have hrl : c.right ≠ c.left := by
        intro h
        have := hlr c (List.mem_cons_self _ _)
        rw [h] at this
        omega
      rw [List.foldl_cons,
        repairFold_price_frozen rest _ c.left hfreeze, repairStep_price_other hrl]
      apply repairFold_lower_bound
      unfold repairStep
      split
      · rename_i htrig
        refine Or.inl ⟨?_, ?_⟩
        · rw [price_setVal_self]; exact isGrid_roundToStep _
        · rw [price_setVal_self, qMul_eq, qAdd_eq]
          have := roundToStep_ge (price st.1 c.left * (1 + marginOf c))
          linarith
      · rename_i htrig
        rw [not_lt, qSub_eq, qMul_eq, qAdd_eq] at htrig
        exact Or.inr (by linarith)
    · rw [List.foldl_cons]
      exact ih (repairStep st d) (List.pairwise_cons.mp hsort).2
        (fun e he => hlr e (List.mem_cons_of_mem _ he)) c hc

/-! ### Sorting lemmas -/

theorem mem_insRank {x y : Constraint} {l : List Constraint} :
    y ∈ insRank x l ↔ y = x ∨ y ∈ l := by
  induction l with
  | nil => simp [insRank]
  | cons z zs ih =>
    unfold insRank
    split
    · simp [ih]; tauto
    · simp

theorem pairwise_insRank {x : Constraint} {l : List Constraint}
    (h : l.Pairwise (fun a b => priceKeyRank a.left ≤ priceKeyRank b.left)) :
    (insRank x l).Pairwise (fun a b => priceKeyRank a.left ≤ priceKeyRank b.left) := by
  induction l with
  | nil => simp [insRank]
  | cons z zs ih =>
    rcases List.pairwise_cons.mp h with ⟨hz, hzs⟩
    unfold insRank
    split
    · rename_i hle
      refine List.pairwise_cons.mpr ⟨?_, ih hzs⟩
      intro y hy
      rcases mem_insRank.mp hy with rfl | hy
      · exact hle
      · exact hz y hy
    · rename_i hgt
      refine List.pairwise_cons.mpr ⟨?_, h⟩
      intro y hy
      rcases List.mem_cons.mp hy with rfl | hy
      · exact le_of_not_le hgt
      · exact le_trans (le_of_not_le hgt) (hz y hy)

theorem mem_sortFold {l : List Constraint} {acc : List Constraint} {y : Constraint} :
    y ∈ l.foldl (fun acc x => insRank x acc) acc ↔ y ∈ acc ∨ y ∈ l := by
  induction l generalizing acc with
  | nil => simp
  | cons z zs ih =>
    rw [List.foldl_cons, ih]
    simp [mem_insRank]
    tauto

theorem mem_sortByRank {l : List Constraint} {y : Constraint} :
    y ∈ sortByRank l ↔ y ∈ l := by
  unfold sortByRank
  rw [mem_sortFold]
  simp

/-! ### Constraint-generation lemmas -/

theorem hasKey_mem_mapFst {T : Table} {k : PriceKey} (h : hasKey T k = true) :
    k ∈ T.map Prod.fst := by
  unfold hasKey at h
  rcases Option.isSome_iff_exists.mp h with ⟨v, hv⟩
  exact mem_mapFst_of_get?_some hv

/-- Case analysis for membership in `build_constraints`: the four rule
families, with the presence checks that guarded their generation. -/
theorem mem_buildConstraints_cases {T : Table} {c : Constraint}
    (h : c ∈ buildConstraints T) :
    (∃ k, c = ⟨mtplKey, k, .mtplMustBeCheaper⟩ ∧ k.product = limitedStr ∧
       hasKey T mtplKey = true ∧ k ∈ T.map Prod.fst) ∨
    (∃ k, c = ⟨k, ⟨cascoStr, k.variant, k.deductible⟩, .cascoMoreExpensiveThanLimited⟩ ∧
       k.product = limitedStr ∧ k ∈ T.map Prod.fst ∧
       hasKey T ⟨cascoStr, k.variant, k.deductible⟩ = true) ∨
    (∃ p d, (p = limitedStr ∨ p = cascoStr) ∧ (d = 100 ∨ d = 200 ∨ d = 500) ∧
       ((c = ⟨⟨p, some compactStr, some d⟩, ⟨p, some comfortStr, some d⟩,
            .comfortMoreThanCompact p d⟩ ∧
         hasKey T ⟨p, some compactStr, some d⟩ = true ∧
         hasKey T ⟨p, some comfortStr, some d⟩ = true) ∨
        (c = ⟨⟨p, some basicStr, some d⟩, ⟨p, some comfortStr, some d⟩,
            .comfortMoreThanBasic p d⟩ ∧
         hasKey T ⟨p, some basicStr, some d⟩ = true ∧
         hasKey T ⟨p, some comfortStr, some d⟩ = true) ∨
        (c = ⟨⟨p, some comfortStr, some d⟩, ⟨p, some premiumStr, some d⟩,
            .premiumMoreThanComfort p d⟩ ∧
         hasKey T ⟨p, some comfortStr, some d⟩ = true ∧
         hasKey T ⟨p, some premiumStr, some d⟩ = true))) := by
  unfold buildConstraints at h
  rcases List.mem_append.mp h with h | h
  · unfold productLevelConstraints at h
    rcases List.mem_append.mp h with h | h
    · left
      split at h
      · rcases List.mem_filterMap.mp h with ⟨k, hk, hf⟩
        split at hf
        · rename_i hp
          exact ⟨k, (Option.some.inj hf).symm, hp, by assumption, hk⟩
        · exact absurd hf (by simp)
      · simp at h
    · right; left
      rcases List.mem_filterMap.mp h with ⟨k, hk, hf⟩
      split at hf
      · rename_i hp
        split at hf
        · rename_i hck
          exact ⟨k, (Option.some.inj hf).symm, hp, hk, hck⟩
        · exact absurd hf (by simp)
      · exact absurd hf (by simp)
  · right; right
    unfold variantLevelConstraints at h
    rcases List.mem_flatMap.mp h with ⟨p, hp, h⟩
    rcases List.mem_flatMap.mp h with ⟨d, hd, h⟩
    refine ⟨p, d, ?_, ?_, ?_⟩
    · simpa [PRODUCTS_WITH_VARIANTS] using hp
    · simpa [DEDUCTIBLES] using hd
    · unfold variantSlice at h
      rcases List.mem_append.mp h with h | h
      · rcases List.mem_append.mp h with h | h
        · left
          split at h
          · rename_i hcc
            rcases List.mem_singleton.mp h with rfl
            exact ⟨rfl, (Bool.and_eq_true _ _ ▸ hcc).1, (Bool.and_eq_true _ _ ▸ hcc).2⟩
          · simp at h
        · right; left
          split at h
          · rename_i hcc
            rcases List.mem_singleton.mp h with rfl
            exact ⟨rfl, (Bool.and_eq_true _ _ ▸ hcc).1, (Bool.and_eq_true _ _ ▸ hcc).2⟩
          · simp at h
      · right; right
        split at h
        · rename_i hcc
          rcases List.mem_singleton.mp h with rfl
          exact ⟨rfl, (Bool.and_eq_true _ _ ▸ hcc).1, (Bool.and_eq_true _ _ ▸ hcc).2⟩
        · simp at h

theorem VARIANT_RANK_bounds (v : Option Str) :
    0 ≤ VARIANT_RANK v ∧ VARIANT_RANK v ≤ 3 := by
  cases v with
  | none => simp [VARIANT_RANK]
  | some s => simp only [VARIANT_RANK]; split_ifs <;> omega

theorem DEDUCTIBLE_RANK_bounds (d : Option Int) :
    0 ≤ DEDUCTIBLE_RANK d ∧ DEDUCTIBLE_RANK d ≤ 3 := by
  cases d with
  | none => simp [DEDUCTIBLE_RANK]
  | some n => simp only [DEDUCTIBLE_RANK]; split_ifs <;> omega

/-- Every generated constraint orders a lower-ranked left key below a
higher-ranked right key. -/
theorem rank_lt_of_mem_buildConstraints {T : Table} {c : Constraint}
    (h : c ∈ buildConstraints T) : priceKeyRank c.left < priceKeyRank c.right := by
  rcases mem_buildConstraints_cases h with ⟨k, rfl, hp, _, _⟩ | ⟨k, rfl, hp, _, _⟩ |
    ⟨p, d, hp, hd, hcase⟩
  · have h2 := VARIANT_RANK_bounds k.variant
    have h3 := DEDUCTIBLE_RANK_bounds k.deductible
    have h0a : PRODUCT_RANK mtplKey.product = 0 := by decide
    have h0b : VARIANT_RANK mtplKey.variant = 0 := by decide
    have h0c : DEDUCTIBLE_RANK mtplKey.deductible = 0 := by decide
    have hlim : PRODUCT_RANK limitedStr = 1 := by decide
    simp only [Constraint.left, Constraint.right, priceKeyRank, hp, h0a, h0b, h0c, hlim]
    omega
  · have hl : PRODUCT_RANK limitedStr = 1 := by decide
    have hc : PRODUCT_RANK cascoStr = 2 := by decide
    simp only [Constraint.left, Constraint.right, priceKeyRank, hp, hl, hc]
    omega
  · have hvc : VARIANT_RANK (some compactStr) = 1 := by decide
    have hvb : VARIANT_RANK (some basicStr) = 1 := by decide
    have hvf : VARIANT_RANK (some comfortStr) = 2 := by decide
    have hvp : VARIANT_RANK (some premiumStr) = 3 := by decide
    rcases hcase with ⟨rfl, _, _⟩ | ⟨rfl, _, _⟩ | ⟨rfl, _, _⟩ <;>
      simp only [Constraint.left, Constraint.right, priceKeyRank, hvc, hvb, hvf, hvp] <;>
      omega

/-- Both endpoints of every generated constraint are keys of the table the
constraints were generated from. -/
theorem endpoints_mem_of_mem_buildConstraints {T : Table} {c : Constraint}
    (h : c ∈ buildConstraints T) :
    c.left ∈ T.map Prod.fst ∧ c.right ∈ T.map Prod.fst := by
  rcases mem_buildConstraints_cases h with ⟨k, rfl, hp, hm, hk⟩ | ⟨k, rfl, hp, hk, hck⟩ |
    ⟨p, d, hp, hd, hcase⟩
  · exact ⟨hasKey_mem_mapFst hm, hk⟩
  · exact ⟨hk, hasKey_mem_mapFst hck⟩
  · rcases hcase with ⟨rfl, h1, h2⟩ | ⟨rfl, h1, h2⟩ | ⟨rfl, h1, h2⟩ <;>
      exact ⟨hasKey_mem_mapFst h1, hasKey_mem_mapFst h2⟩

/-- The two fixed margins; every constraint's margin is between them. -/
theorem marginOf_bounds (c : Constraint) :
    VARIANT_MARGIN ≤ marginOf c ∧ marginOf c ≤ PRODUCT_MARGIN := by
  unfold marginOf
  split_ifs <;> norm_num [PRODUCT_MARGIN, VARIANT_MARGIN]

theorem pairwise_sortByRank (l : List Constraint) :
    (sortByRank l).Pairwise (fun a b => priceKeyRank a.left ≤ priceKeyRank b.left) := by
  unfold sortByRank
  suffices h : ∀ acc, acc.Pairwise (fun a b => priceKeyRank a.left ≤ priceKeyRank b.left) →
      (l.foldl (fun acc x => insRank x acc) acc).Pairwise
        (fun a b => priceKeyRank a.left ≤ priceKeyRank b.left) by
    exact h [] (by simp)
  induction l with
  | nil => intro acc hacc; simpa
  | cons z zs ih =>
    intro acc hacc
    rw [List.foldl_cons]
    exact ih _ (pairwise_insRank hacc)

/-! ### Margin and tolerance constants over standard operations -/

theorem TOL_pos : (0 : ℚ) < TOL := by
  rw [TOL, mkRat_eq_q]; norm_num

theorem PRODUCT_MARGIN_eq : PRODUCT_MARGIN = 1/10 := by
  rw [PRODUCT_MARGIN, mkRat_eq_q]; norm_num

theorem VARIANT_MARGIN_eq : VARIANT_MARGIN = 1/20 := by
  rw [VARIANT_MARGIN, mkRat_eq_q]; norm_num

/-- The repair-pass margin bound instantiated on the full keyed pipeline. -/
theorem fixKeyed_margin_bound (T : Table) (c : Constraint)
    (hc : c ∈ buildConstraints (applyDeductibleStructure T).1) :
    price (fixKeyed T).1 c.left * (1 + marginOf c) - 5 ≤ price (fixKeyed T).1 c.right := by
  unfold fixKeyed
  exact repairFold_margin_bound _ _ (pairwise_sortByRank _)
    (fun e he => rank_lt_of_mem_buildConstraints (mem_sortByRank.mp he)) c
    (mem_sortByRank.mpr hc)

/-! ### Issue-log lemmas -/

theorem normDedFold_issues (bk : PriceKey) (bp : ℚ) (p v : Str) (ds : List Int)
    (st : Table × List Issue) (h : ∀ e ∈ st.2, e.isRepair = false) :
    ∀ e ∈ (ds.foldl (normDedStep bk bp p v) st).2, e.isRepair = false := by
  induction ds generalizing st with
  | nil => exact h
  | cons d rest ih =>
    rw [List.foldl_cons]
    apply ih
    intro e he
    unfold normDedStep at he
    split at he
    · exact h e he
    · split at he
      · rcases List.mem_append.mp he with he | he
        · exact h e he
        · rcases List.mem_singleton.mp he with rfl; rfl
      · exact h e he

theorem normPairsFold_issues (ps : List (Str × Str)) (st : Table × List Issue)
    (h : ∀ e ∈ st.2, e.isRepair = false) :
    ∀ e ∈ (ps.foldl normPair st).2, e.isRepair = false := by
  induction ps generalizing st with
  | nil => exact h
  | cons pv rest ih =>
    rw [List.foldl_cons]
    apply ih
    intro e he
    unfold normPair at he
    split at he
    · exact h e he
    · exact normDedFold_issues _ _ _ _ _ _ h e he

/-- Every entry the normalization emits is an `aligned` entry. -/
theorem applyDeductibleStructure_issues (T : Table) :
    ∀ e ∈ (applyDeductibleStructure T).2, e.isRepair = false := by
  unfold applyDeductibleStructure
  exact normPairsFold_issues _ _ (by intro e he; simp at he)

/-- Every entry appended by the repair fold records a new price above the
old price minus half a grid step. -/
theorem repairFold_issues_bound (cs : List Constraint) (st : Table × List Issue)
    (h : ∀ e ∈ st.2, e.isRepair = true → e.oldPrice - 5 < e.newPrice) :
    ∀ e ∈ (cs.foldl repairStep st).2, e.isRepair = true → e.oldPrice - 5 < e.newPrice := by
  induction cs generalizing st with
  | nil => exact h
  | cons c rest ih =>
    rw [List.foldl_cons]
    apply ih
    intro e he hrep
    unfold repairStep at he
    split at he
    · rename_i htrig
      rw [qSub_eq, qMul_eq, qAdd_eq] at htrig
      rcases List.mem_append.mp he with he | he
      · exact h e he hrep
      · rcases List.mem_singleton.mp he with rfl
        simp only [Issue.oldPrice, Issue.newPrice]
        rw [qMul_eq, qAdd_eq]
        have h5 := roundToStep_ge (price st.1 c.left * (1 + marginOf c))
        have htol := TOL_pos
        linarith
    · exact h e he hrep

/-! ### String-parsing lemmas -/

theorem dropPrefixQ_eq_some {p : Str} : ∀ {l t : Str},
    dropPrefixQ p l = some t ↔ l = p ++ t := by
  induction p with
  | nil => intro l t; simp [dropPrefixQ]
  | cons c ps ih =>
    intro l t
    cases l with
    | nil => simp [dropPrefixQ]
    | cons x xs =>
      simp only [dropPrefixQ, List.cons_append]
      split
      · rename_i hx
        subst hx
        rw [ih]
        constructor
        · rintro rfl; rfl
        · intro h
          exact (List.cons.injEq _ _ _ _ ▸ h).2
      · rename_i hx
        constructor
        · intro h; cases h
        · intro h
          exact absurd (List.cons.injEq _ _ _ _ ▸ h).1 hx

theorem dropPrefixQ_self (p t : Str) : dropPrefixQ p (p ++ t) = some t :=
  dropPrefixQ_eq_some.mpr rfl

theorem splitFirstUnder_eq_some : ∀ {l a b : Str},
    splitFirstUnder l = some (a, b) ↔ l = a ++ '_' :: b ∧ '_' ∉ a := by
  intro l
  induction l with
  | nil =>
    intro a b
    constructor
    · intro h; cases h
    · rintro ⟨h, _⟩
      exact absurd h.symm (by simp)
  | cons c cs ih =>
    intro a b
    simp only [splitFirstUnder]
    split
    · rename_i hc
      subst hc
      constructor
      · intro h
        injection h with h
        injection h with h1 h2
        subst h1; subst h2
        exact ⟨rfl, by simp⟩
      · rintro ⟨h, hmem⟩
        cases a with
        | nil =>
          simp only [List.nil_append] at h
          injection h with _ h2
          subst h2; rfl
        | cons y ys =>
          simp only [List.cons_append] at h
          injection h with h1 _
          exact absurd (h1 ▸ List.mem_cons_self y ys) (h1 ▸ hmem)
    · rename_i hc
      rw [Option.map_eq_some']
      constructor
      · rintro ⟨⟨a', b'⟩, hs, heq⟩
        rw [Prod.mk.injEq] at heq
        obtain ⟨rfl, rfl⟩ := heq
        rcases ih.mp hs with ⟨rfl, hmem⟩
        exact ⟨rfl, by simp [hmem, Ne.symm hc]⟩
      · rintro ⟨h, hmem⟩
        cases a with
        | nil =>
          simp only [List.nil_append] at h
          injection h with h1 _
          exact absurd h1 hc
        | cons y ys =>
          simp only [List.cons_append] at h
          injection h with h1 h2
          subst h1
          have hys : '_' ∉ ys := fun hm => hmem (List.mem_cons_of_mem _ hm)
          exact ⟨(ys, b), ih.mpr ⟨h2, hys⟩, rfl⟩

/-! ### Digit-string lemmas -/

theorem digitChar_isDigit (d : Nat) : (digitChar d).isDigit = true := by
  unfold digitChar
  split <;> decide

theorem charDigit_digitChar {d : Nat} (h : d < 10) : charDigit (digitChar d) = d := by
  interval_cases d <;> decide

theorem isPyWS_false_of_isDigit {c : Char} (h : c.isDigit = true) : isPyWS c = false := by
  unfold isPyWS
  by_cases h1 : c = ' '
  · subst h1; cases h
  by_cases h2 : c = '\t'
  · subst h2; cases h
  by_cases h3 : c = '\n'
  · subst h3; cases h
  by_cases h4 : c = '\x0d'
  · subst h4; cases h
  by_cases h5 : c = '\x0b'
  · subst h5; cases h
  by_cases h6 : c = '\x0c'
  · subst h6; cases h
  simp [h1, h2, h3, h4, h5, h6]

theorem dropWhile_eq_self_of_none {p : Char → Bool} {l : Str}
    (h : ∀ c ∈ l, p c = false) : l.dropWhile p = l := by
  cases l with
  | nil => rfl
  | cons c cs =>
    rw [List.dropWhile_cons, h c (List.mem_cons_self _ _)]
    simp

theorem stripWS_eq_self {l : Str} (h : ∀ c ∈ l, isPyWS c = false) : stripWS l = l := by
  unfold stripWS
  rw [dropWhile_eq_self_of_none h,
    dropWhile_eq_self_of_none (fun c hc => h c (List.mem_reverse.mp hc)),
    List.reverse_reverse]

theorem digitsValGo_of_digits {l : Str} (hl : ∀ c ∈ l, c.isDigit = true) :
    ∀ acc, digitsValGo acc l = some (l.foldl (fun a c => 10 * a + charDigit c) acc) := by
  induction l with
  | nil => intro acc; rfl
  | cons c cs ih =>
    intro acc
    have hc : c.isDigit = true := hl c (List.mem_cons_self _ _)
    have hcu : c ≠ '_' := by rintro rfl; cases hc
    unfold digitsValGo
    rw [if_neg hcu, if_pos hc, List.foldl_cons]
    exact ih (fun x hx => hl x (List.mem_cons_of_mem _ hx)) _

theorem digitsValStart_of_digits {l : Str} (hne : l ≠ [])
    (hl : ∀ c ∈ l, c.isDigit = true) :
    digitsValStart l = some (l.foldl (fun a c => 10 * a + charDigit c) 0) := by
  cases l with
  | nil => exact absurd rfl hne
  | cons c cs =>
    rw [show digitsValStart (c :: cs) =
        if c.isDigit = true then digitsValGo (charDigit c) cs else none from rfl,
      if_pos (hl c (List.mem_cons_self _ _)),
      digitsValGo_of_digits (fun x hx => hl x (List.mem_cons_of_mem _ hx)),
      List.foldl_cons]
    norm_num

theorem natToCharsAux_digits : ∀ fuel m, m < fuel →
    ∀ c ∈ natToCharsAux fuel m, c.isDigit = true := by
  intro fuel
  induction fuel with
  | zero => intro m hm; omega
  | succ f ih =>
    intro m hm c hc
    unfold natToCharsAux at hc
    split at hc
    · rcases List.mem_singleton.mp hc with rfl
      exact digitChar_isDigit _
    · rename_i hm10
      rcases List.mem_append.mp hc with hc | hc
      · have hdiv : m / 10 < f := by
          have h1 : m / 10 < m := Nat.div_lt_self (by omega) (by omega)
          omega
        exact ih (m / 10) hdiv c hc
      · rcases List.mem_singleton.mp hc with rfl
        exact digitChar_isDigit _

theorem natToCharsAux_ne_nil : ∀ fuel m, m < fuel → natToCharsAux fuel m ≠ [] := by
  intro fuel
  cases fuel with
  | zero => intro m hm; omega
  | succ f =>
    intro m hm
    unfold natToCharsAux
    split
    · simp
    · simp

theorem natToCharsAux_val : ∀ fuel m acc, m < fuel →
    (natToCharsAux fuel m).foldl (fun a c => 10 * a + charDigit c) acc =
      acc * 10 ^ (natToCharsAux fuel m).length + m := by
  intro fuel
  induction fuel with
  | zero => intro m acc hm; omega
  | succ f ih =>
    intro m acc hm
    unfold natToCharsAux
    split
    · rename_i hm10
      simp only [List.foldl_cons, List.foldl_nil, List.length_singleton, pow_one]
      rw [charDigit_digitChar hm10]
      ring
    · rename_i hm10
      have hdiv : m / 10 < f := by
        have h1 : m / 10 < m := Nat.div_lt_self (by omega) (by omega)
        omega
      rw [List.foldl_append, ih (m / 10) acc hdiv]
      simp only [List.foldl_cons, List.foldl_nil, List.length_append, List.length_singleton]
      rw [charDigit_digitChar (show m % 10 < 10 by omega), pow_succ]
      have hdm := Nat.div_add_mod m 10
      have h1 : acc * (10 ^ (natToCharsAux f (m / 10)).length * 10) =
          10 * (acc * 10 ^ (natToCharsAux f (m / 10)).length) := by ring
      rw [h1, Nat.mul_add]
      omega

theorem digitsValStart_natToChars (m : Nat) : digitsValStart (natToChars m) = some m := by
  unfold natToChars
  rw [digitsValStart_of_digits (natToCharsAux_ne_nil _ _ (by omega))
    (natToCharsAux_digits _ _ (by omega)),
    natToCharsAux_val _ _ _ (by omega)]
  simp

/-- Python's `int(str(d)) = d`: parsing the canonical decimal form of an
integer recovers it. -/
theorem pyParseInt_intToChars (d : ℤ) : pyParseInt (intToChars d) = some d := by
  unfold intToChars
  split
  · rename_i hneg
    have hnws : ∀ c ∈ '-' :: natToChars d.natAbs, isPyWS c = false := by
      intro c hc
      rcases List.mem_cons.mp hc with rfl | hc
      · decide
      · exact isPyWS_false_of_isDigit (natToCharsAux_digits _ _ (by omega) c hc)
    unfold pyParseInt
    rw [stripWS_eq_self hnws]
    simp only [pyParseIntCore, digitsValStart_natToChars]
    rw [if_neg (show ¬('-' : Char) = '+' by decide), if_pos trivial, Option.some.injEq]
    omega
  · rename_i hneg
    have hd : ∀ c ∈ natToChars d.toNat, c.isDigit = true :=
      natToCharsAux_digits _ _ (by omega)
    have hnws : ∀ c ∈ natToChars d.toNat, isPyWS c = false :=
      fun c hc => isPyWS_false_of_isDigit (hd c hc)
    have hne : natToChars d.toNat ≠ [] := natToCharsAux_ne_nil _ _ (by omega)
    unfold pyParseInt
    rw [stripWS_eq_self hnws]
    rcases hl : natToChars d.toNat with _ | ⟨c, cs⟩
    · exact absurd hl hne
    · have hc : c.isDigit = true := hd c (hl ▸ List.mem_cons_self _ _)
      have hcp : c ≠ '+' := by rintro rfl; cases hc
      have hcm : c ≠ '-' := by rintro rfl; cases hc
      simp only [pyParseIntCore]
      rw [if_neg hcp, if_neg hcm, ← hl, digitsValStart_natToChars]
      rw [show (match some d.toNat with
          | some n => some ((n : ℤ))
          | none => none) = some ((d.toNat : ℤ)) from rfl, Option.some.injEq]
      omega

/-! ### `from_str` / `to_str` lemmas -/

theorem fromStr_eq_limited {raw tail : Str} (hm : raw ≠ mtplStr)
    (h : dropPrefixQ limitedUnderStr raw = some tail) :
    fromStr raw = fromStrSeg limitedStr tail := by
  unfold fromStr
  rw [if_neg hm, h]

theorem fromStr_eq_casco {raw tail : Str} (hm : raw ≠ mtplStr)
    (h1 : dropPrefixQ limitedUnderStr raw = none)
    (h2 : dropPrefixQ cascoUnderStr raw = some tail) :
    fromStr raw = fromStrSeg cascoStr tail := by
  unfold fromStr
  rw [if_neg hm, h1, h2]

theorem fromStr_eq_none {raw : Str} (hm : raw ≠ mtplStr)
    (h1 : dropPrefixQ limitedUnderStr raw = none)
    (h2 : dropPrefixQ cascoUnderStr raw = none) :
    fromStr raw = none := by
  unfold fromStr
  rw [if_neg hm, h1, h2]

theorem fromStrSeg_eq_some {p tail v dstr : Str}
    (h : splitFirstUnder tail = some (v, dstr)) :
    fromStrSeg p tail = (pyParseInt dstr).map (fun d => ⟨p, some v, some d⟩) := by
  unfold fromStrSeg
  rw [h]

theorem fromStrSeg_eq_noneSplit {p tail : Str} (h : splitFirstUnder tail = none) :
    fromStrSeg p tail = none := by
  unfold fromStrSeg
  rw [h]

theorem ne_mtpl_of_head (c : Char) (p x : Str) (hc : c ≠ 'm') :
    (c :: p) ++ x ≠ mtplStr := by
  intro heq
  apply hc
  have h1 : ((c :: p) ++ x).head? = mtplStr.head? := by rw [heq]
  rw [List.cons_append, List.head?_cons, show mtplStr.head? = some 'm' from rfl] at h1
  exact Option.some.inj h1

theorem dropPrefixQ_limited_of_casco (x : Str) :
    dropPrefixQ limitedUnderStr (cascoUnderStr ++ x) = none := rfl

theorem limitedUnder_ne_mtpl (x : Str) : limitedUnderStr ++ x ≠ mtplStr :=
  ne_mtpl_of_head 'l' _ x (by decide)

theorem cascoUnder_ne_mtpl (x : Str) : cascoUnderStr ++ x ≠ mtplStr :=
  ne_mtpl_of_head 'c' _ x (by decide)

/-- Every key produced by `from_str` has one of the three parsed shapes. -/
theorem fromStr_parsedShape {raw : Str} {k : PriceKey} (h : fromStr raw = some k) :
    ParsedShape k := by
  unfold fromStr at h
  split at h
  · exact Or.inl (Option.some.inj h).symm
  · rename_i hm
    split at h
    · rename_i tail hdp
      unfold fromStrSeg at h
      split at h
      · rename_i v dstr hsplit
        rcases Option.map_eq_some'.mp h with ⟨d, hd, hk⟩
        exact Or.inr (Or.inl ⟨v, d, hk.symm, (splitFirstUnder_eq_some.mp hsplit).2⟩)
      · cases h
    · rename_i hdp1
      split at h
      · rename_i tail hdp
        unfold fromStrSeg at h
        split at h
        · rename_i v dstr hsplit
          rcases Option.map_eq_some'.mp h with ⟨d, hd, hk⟩
          exact Or.inr (Or.inr ⟨v, d, hk.symm, (splitFirstUnder_eq_some.mp hsplit).2⟩)
        · cases h
      · cases h

theorem toStr_limited (v : Str) (d : ℤ) :
    toStr ⟨limitedStr, some v, some d⟩ =
      some (limitedStr ++ '_' :: v ++ '_' :: intToChars d) := rfl

theorem toStr_casco (v : Str) (d : ℤ) :
    toStr ⟨cascoStr, some v, some d⟩ =
      some (cascoStr ++ '_' :: v ++ '_' :: intToChars d) := rfl

theorem limitedUnder_decomp (x : Str) :
    limitedStr ++ '_' :: x = limitedUnderStr ++ x := by
  rw [show limitedUnderStr = limitedStr ++ ['_'] from rfl, List.append_assoc]
  rfl

theorem cascoUnder_decomp (x : Str) :
    cascoStr ++ '_' :: x = cascoUnderStr ++ x := by
  rw [show cascoUnderStr = cascoStr ++ ['_'] from rfl, List.append_assoc]
  rfl

/-- Serializing any `from_str`-produced key and re-parsing recovers the key. -/
theorem fromStr_toStr_of_parsedShape {k : PriceKey} (h : ParsedShape k) :
    ∃ s, toStr k = some s ∧ fromStr s = some k := by
  rcases h with rfl | ⟨v, d, rfl, hv⟩ | ⟨v, d, rfl, hv⟩
  · exact ⟨mtplStr, by decide, by decide⟩
  · refine ⟨limitedStr ++ '_' :: v ++ '_' :: intToChars d, toStr_limited v d, ?_⟩
    rw [show limitedStr ++ '_' :: v ++ '_' :: intToChars d =
        limitedUnderStr ++ (v ++ '_' :: intToChars d) from limitedUnder_decomp _,
      fromStr_eq_limited (limitedUnder_ne_mtpl _) (dropPrefixQ_self _ _),
      fromStrSeg_eq_some (splitFirstUnder_eq_some.mpr ⟨rfl, hv⟩),
      pyParseInt_intToChars]
    rfl
  · refine ⟨cascoStr ++ '_' :: v ++ '_' :: intToChars d, toStr_casco v d, ?_⟩
    rw [show cascoStr ++ '_' :: v ++ '_' :: intToChars d =
        cascoUnderStr ++ (v ++ '_' :: intToChars d) from cascoUnder_decomp _,
      fromStr_eq_casco (cascoUnder_ne_mtpl _)
        (dropPrefixQ_limited_of_casco _) (dropPrefixQ_self _ _),
      fromStrSeg_eq_some (splitFirstUnder_eq_some.mpr ⟨rfl, hv⟩),
      pyParseInt_intToChars]
    rfl

/-- The parser succeeds exactly on the spec-described shapes. -/
theorem fromStr_isSome_iff_acceptedShape (raw : Str) :
    (fromStr raw).isSome = true ↔ AcceptedShape raw := by
  constructor
  · intro h
    by_cases hm : raw = mtplStr
    · exact Or.inl hm
    rcases hdp : dropPrefixQ limitedUnderStr raw with _ | tail
    · rcases hdp2 : dropPrefixQ cascoUnderStr raw with _ | tail
      · rw [fromStr_eq_none hm hdp hdp2] at h
        cases h
      · rw [fromStr_eq_casco hm hdp hdp2] at h
        rcases hsplit : splitFirstUnder tail with _ | ⟨v, dstr⟩
        · rw [fromStrSeg_eq_noneSplit hsplit] at h
          cases h
        · rw [fromStrSeg_eq_some hsplit] at h
          rcases splitFirstUnder_eq_some.mp hsplit with ⟨rfl, hvmem⟩
          refine Or.inr (Or.inr ⟨v, dstr, ?_, hvmem, ?_⟩)
          · rw [List.append_assoc]
            exact dropPrefixQ_eq_some.mp hdp2
          · rw [show (Option.map (fun d =>
                  (⟨cascoStr, some v, some d⟩ : PriceKey)) (pyParseInt dstr)).isSome =
                (pyParseInt dstr).isSome from Option.isSome_map ..] at h
            exact h
    · rw [fromStr_eq_limited hm hdp] at h
      rcases hsplit : splitFirstUnder tail with _ | ⟨v, dstr⟩
      · rw [fromStrSeg_eq_noneSplit hsplit] at h
        cases h
      · rw [fromStrSeg_eq_some hsplit] at h
        rcases splitFirstUnder_eq_some.mp hsplit with ⟨rfl, hvmem⟩
        refine Or.inr (Or.inl ⟨v, dstr, ?_, hvmem, ?_⟩)
        · rw [List.append_assoc]
          exact dropPrefixQ_eq_some.mp hdp
        · rw [show (Option.map (fun d =>
                (⟨limitedStr, some v, some d⟩ : PriceKey)) (pyParseInt dstr)).isSome =
              (pyParseInt dstr).isSome from Option.isSome_map ..] at h
          exact h
  · intro h
    rcases h with rfl | ⟨v, dstr, rfl, hv, hpi⟩ | ⟨v, dstr, rfl, hv, hpi⟩
    · rw [show fromStr mtplStr = some mtplKey from rfl]
      rfl
    · rw [List.append_assoc,
        fromStr_eq_limited (limitedUnder_ne_mtpl _) (dropPrefixQ_self _ _),
        fromStrSeg_eq_some (splitFirstUnder_eq_some.mpr ⟨rfl, hv⟩)]
      rcases Option.isSome_iff_exists.mp hpi with ⟨d, hd⟩
      rw [hd]
      rfl
    · rw [List.append_assoc,
        fromStr_eq_casco (cascoUnder_ne_mtpl _)
          (dropPrefixQ_limited_of_casco _) (dropPrefixQ_self _ _),
        fromStrSeg_eq_some (splitFirstUnder_eq_some.mpr ⟨rfl, hv⟩)]
      rcases Option.isSome_iff_exists.mp hpi with ⟨d, hd⟩
      rw [hd]
      rfl

/-- An unparseable key anywhere in the raw table makes the dict
comprehension raise, so the whole call errors out. -/
theorem parseTableGo_error {tbl : List (Str × ℚ)} :
    ∀ {acc : Table} {raw : Str} {v : ℚ}, (raw, v) ∈ tbl → fromStr raw = none →
    ∃ e, parseTableGo acc tbl = .error e := by
  induction tbl with
  | nil => intro acc raw v hmem; simp at hmem
  | cons hd rest ih =>
    obtain ⟨s, w⟩ := hd
    intro acc raw v hmem hnone
    rcases hfs : fromStr s with _ | k
    · exact ⟨s, by unfold parseTableGo; rw [hfs]⟩
    · rcases List.mem_cons.mp hmem with heq | hmem
      · rw [Prod.mk.injEq] at heq
        rw [← heq.1] at hfs
        rw [hfs] at hnone
        cases hnone
      · rcases @ih (setVal acc k w) raw v hmem hnone with ⟨e, he⟩
        exact ⟨e, by unfold parseTableGo; rw [hfs]; exact he⟩

/-! ### More association-list lemmas -/

theorem setVal_append_of_not_mem {α β : Type} [DecidableEq α]
    (l : List (α × β)) (k : α) (v : β) (h : k ∉ l.map Prod.fst) :
    setVal l k v = l ++ [(k, v)] := by
  induction l with
  | nil => rfl
  | cons hd t ih =>
    obtain ⟨k₀, v₀⟩ := hd
    simp only [List.map_cons, List.mem_cons, not_or] at h
    rw [show setVal ((k₀, v₀) :: t) k v = if k₀ = k then (k, v) :: t
        else (k₀, v₀) :: setVal t k v from rfl,
      if_neg (fun e => h.1 e.symm), ih h.2, List.cons_append]

theorem mem_setVal {α β : Type} [DecidableEq α]
    {l : List (α × β)} {k : α} {v : β} {kv : α × β} (h : kv ∈ setVal l k v) :
    kv ∈ l ∨ kv = (k, v) := by
  induction l with
  | nil => simpa [setVal] using h
  | cons hd t ih =>
    obtain ⟨k₀, v₀⟩ := hd
    rw [show setVal ((k₀, v₀) :: t) k v = if k₀ = k then (k, v) :: t
        else (k₀, v₀) :: setVal t k v from rfl] at h
    split at h
    · rcases List.mem_cons.mp h with rfl | h
      · exact Or.inr rfl
      · exact Or.inl (List.mem_cons_of_mem _ h)
    · rcases List.mem_cons.mp h with rfl | h
      · exact Or.inl (List.mem_cons_self _ _)
      · rcases ih h with h | h
        · exact Or.inl (List.mem_cons_of_mem _ h)
        · exact Or.inr h

theorem mapFst_setVal_nodup {α β : Type} [DecidableEq α]
    {l : List (α × β)} {k : α} {v : β} (h : (l.map Prod.fst).Nodup) :
    ((setVal l k v).map Prod.fst).Nodup := by
  by_cases hk : k ∈ l.map Prod.fst
  · rw [mapFst_setVal_of_mem _ _ _ hk]
    exact h
  · rw [setVal_append_of_not_mem _ _ _ hk]
    simp only [List.map_append, List.map_cons, List.map_nil]
    rw [List.nodup_append]
    exact ⟨h, List.nodup_singleton _, fun x hx hxk => (List.mem_singleton.mp hxk ▸ hk) hx⟩

theorem get?_eq_none_of_not_mem {α β : Type} [DecidableEq α]
    {l : List (α × β)} {k : α} (h : k ∉ l.map Prod.fst) : alistGet? l k = none := by
  rcases hg : alistGet? l k with _ | v
  · rfl
  · exact absurd (mem_mapFst_of_get?_some hg) h

/-- Two tables with the same (duplicate-free) key sequence and the same
lookups are equal. -/
theorem alist_ext {A B : Table}
    (hfst : A.map Prod.fst = B.map Prod.fst)
    (hnd : (A.map Prod.fst).Nodup)
    (hget : ∀ k, alistGet? A k = alistGet? B k) : A = B := by
  induction A generalizing B with
  | nil =>
    cases B with
    | nil => rfl
    | cons hb tb => simp at hfst
  | cons ha ta ih =>
    obtain ⟨k, v⟩ := ha
    cases B with
    | nil => simp at hfst
    | cons hb tb =>
      obtain ⟨k', v'⟩ := hb
      simp only [List.map_cons, List.cons.injEq] at hfst
      obtain ⟨rfl, hfst⟩ := hfst
      have hv : v = v' := by
        have := hget k
        simp [alistGet?] at this
        exact this
      subst hv
      simp only [List.map_cons, List.nodup_cons] at hnd
      have hta : k ∉ ta.map Prod.fst := hnd.1
      have htb : k ∉ tb.map Prod.fst := hfst ▸ hnd.1
      have htail : ∀ k₀, alistGet? ta k₀ = alistGet? tb k₀ := by
        intro k₀
        by_cases hk : k = k₀
        · subst hk
          rw [get?_eq_none_of_not_mem hta, get?_eq_none_of_not_mem htb]
        · have := hget k₀
          simp only [alistGet?, hk, if_false] at this
          exact this
      rw [ih hfst hnd.2 htail]

/-! ### Generic fold lemmas: the change log is append-only, and a price
changes only when an entry naming its key is logged -/

theorem foldl_issues_mono {σ : Type} (step : Table × List Issue → σ → Table × List Issue)
    (hstep : ∀ st x, ∃ e, (step st x).2 = st.2 ++ e) :
    ∀ (l : List σ) (st : Table × List Issue), ∃ E, (l.foldl step st).2 = st.2 ++ E := by
  intro l
  induction l with
  | nil => exact fun st => ⟨[], by simp⟩
  | cons x rest ih =>
    intro st
    rcases hstep st x with ⟨e, he⟩
    rcases ih (step st x) with ⟨E, hE⟩
    exact ⟨e ++ E, by rw [List.foldl_cons, hE, he, List.append_assoc]⟩

theorem foldl_write_log {σ : Type} (step : Table × List Issue → σ → Table × List Issue)
    (hmono : ∀ st x, ∃ e, (step st x).2 = st.2 ++ e)
    (hwl : ∀ st x (k : PriceKey), price (step st x).1 k ≠ price st.1 k →
      ∃ e ∈ (step st x).2, e.key = k) :
    ∀ (l : List σ) (st : Table × List Issue) (k : PriceKey),
      price (l.foldl step st).1 k ≠ price st.1 k →
      ∃ e ∈ (l.foldl step st).2, e.key = k := by
  intro l
  induction l with
  | nil => intro st k h; exact absurd rfl h
  | cons x rest ih =>
    intro st k h
    rw [List.foldl_cons] at h
    rw [List.foldl_cons]
    by_cases hstep : price (step st x).1 k = price st.1 k
    · exact ih (step st x) k (fun he => h (he.trans hstep))
    · rcases hwl st x k hstep with ⟨e, he, hek⟩
      rcases foldl_issues_mono step hmono rest (step st x) with ⟨E, hE⟩
      exact ⟨e, hE ▸ List.mem_append_left _ he, hek⟩

theorem foldl_frozen_of_no_log {σ : Type} (step : Table × List Issue → σ → Table × List Issue)
    (hmono : ∀ st x, ∃ e, (step st x).2 = st.2 ++ e)
    (hwl : ∀ st x (k : PriceKey), price (step st x).1 k ≠ price st.1 k →
      ∃ e ∈ (step st x).2, e.key = k)
    (l : List σ) (st : Table × List Issue) (k : PriceKey)
    (h : ∀ e ∈ (l.foldl step st).2, e.key ≠ k) :
    price (l.foldl step st).1 k = price st.1 k := by
  by_contra hne
  rcases foldl_write_log step hmono hwl l st k hne with ⟨e, he, hek⟩
  exact h e he hek

/-! ### Step properties of the normalizer and the repair pass -/

theorem normDedStep_eq_absent {bk : PriceKey} {bp : ℚ} {p v : Str}
    {st : Table × List Issue} {d : Int}
    (hold : alistGet? st.1 ⟨p, some v, some d⟩ = none) :
    normDedStep bk bp p v st d = st := by
  unfold normDedStep
  simp only [hold]

theorem normDedStep_eq_write {bk : PriceKey} {bp : ℚ} {p v : Str}
    {st : Table × List Issue} {d : Int} {oldPrice : ℚ}
    (hold : alistGet? st.1 ⟨p, some v, some d⟩ = some oldPrice)
    (hcond : TOL < qAbs (qSub (roundToStep (qMul bp (DEDUCTIBLE_DISCOUNTS d))) oldPrice)) :
    normDedStep bk bp p v st d =
      (setVal st.1 ⟨p, some v, some d⟩ (roundToStep (qMul bp (DEDUCTIBLE_DISCOUNTS d))),
       st.2 ++ [.aligned ⟨p, some v, some d⟩ oldPrice
          (roundToStep (qMul bp (DEDUCTIBLE_DISCOUNTS d))) bk bp]) := by
  unfold normDedStep
  simp only [hold]
  rw [if_pos hcond]

theorem normDedStep_eq_skip {bk : PriceKey} {bp : ℚ} {p v : Str}
    {st : Table × List Issue} {d : Int} {oldPrice : ℚ}
    (hold : alistGet? st.1 ⟨p, some v, some d⟩ = some oldPrice)
    (hcond : ¬ TOL < qAbs (qSub (roundToStep (qMul bp (DEDUCTIBLE_DISCOUNTS d))) oldPrice)) :
    normDedStep bk bp p v st d = st := by
  unfold normDedStep
  simp only [hold]
  rw [if_neg hcond]

theorem repairStep_eq_write {st : Table × List Issue} {c : Constraint}
    (hcond : price st.1 c.right <
      qSub (qMul (price st.1 c.left) (qAdd 1 (marginOf c))) TOL) :
    repairStep st c =
      (setVal st.1 c.right (roundToStep (qMul (price st.1 c.left) (qAdd 1 (marginOf c)))),
       st.2 ++ [.adjusted c.right (price st.1 c.right)
          (roundToStep (qMul (price st.1 c.left) (qAdd 1 (marginOf c))))
          c.description (marginOf c) c.left (price st.1 c.left)]) := by
  unfold repairStep
  rw [if_pos hcond]

theorem repairStep_eq_skip {st : Table × List Issue} {c : Constraint}
    (hcond : ¬ price st.1 c.right <
      qSub (qMul (price st.1 c.left) (qAdd 1 (marginOf c))) TOL) :
    repairStep st c = st := by
  unfold repairStep
  rw [if_neg hcond]

theorem normDedStep_mono (bk : PriceKey) (bp : ℚ) (p v : Str)
    (st : Table × List Issue) (d : Int) :
    ∃ e, (normDedStep bk bp p v st d).2 = st.2 ++ e := by
  unfold normDedStep
  split
  · exact ⟨[], by simp⟩
  · split
    · exact ⟨_, rfl⟩
    · exact ⟨[], by simp⟩

theorem normDedStep_write_log (bk : PriceKey) (bp : ℚ) (p v : Str)
    (st : Table × List Issue) (d : Int) (k : PriceKey)
    (h : price (normDedStep bk bp p v st d).1 k ≠ price st.1 k) :
    ∃ e ∈ (normDedStep bk bp p v st d).2, e.key = k := by
  rcases hold : alistGet? st.1 ⟨p, some v, some d⟩ with _ | oldPrice
  · rw [normDedStep_eq_absent hold] at h
    exact absurd rfl h
  · by_cases hcond : TOL < qAbs (qSub (roundToStep (qMul bp (DEDUCTIBLE_DISCOUNTS d))) oldPrice)
    · rw [normDedStep_eq_write hold hcond] at h ⊢
      by_cases hk : k = ⟨p, some v, some d⟩
      · subst hk
        exact ⟨_, List.mem_append_right _ (List.mem_singleton_self _), rfl⟩
      · rw [price_setVal_ne _ _ _ _ hk] at h
        exact absurd rfl h
    · rw [normDedStep_eq_skip hold hcond] at h
      exact absurd rfl h

theorem normDedStep_mapFst (bk : PriceKey) (bp : ℚ) (p v : Str)
    (st : Table × List Issue) (d : Int) :
    ((normDedStep bk bp p v st d).1).map Prod.fst = st.1.map Prod.fst := by
  unfold normDedStep
  split
  · rfl
  · rename_i oldPrice hold
    split
    · exact mapFst_setVal_of_mem _ _ _ (mem_mapFst_of_get?_some hold)
    · rfl

theorem normPair_mono (st : Table × List Issue) (pv : Str × Str) :
    ∃ e, (normPair st pv).2 = st.2 ++ e := by
  unfold normPair
  split
  · exact ⟨[], by simp⟩
  · exact foldl_issues_mono _ (normDedStep_mono _ _ _ _) _ _

theorem normPair_write_log (st : Table × List Issue) (pv : Str × Str) (k : PriceKey)
    (h : price (normPair st pv).1 k ≠ price st.1 k) :
    ∃ e ∈ (normPair st pv).2, e.key = k := by
  unfold normPair at h ⊢
  split at h
  · exact absurd rfl h
  · exact foldl_write_log _ (normDedStep_mono _ _ _ _)
      (normDedStep_write_log _ _ _ _) _ _ k h

theorem normPair_mapFst (st : Table × List Issue) (pv : Str × Str) :
    ((normPair st pv).1).map Prod.fst = st.1.map Prod.fst := by
  unfold normPair
  split
  · rfl
  · rename_i basePrice hb
    generalize hst : st = st₀
    have : ∀ (ds : List Int) (st₁ : Table × List Issue),
        ((ds.foldl (normDedStep ⟨pv.1, some pv.2, some 100⟩ basePrice pv.1 pv.2) st₁).1).map
          Prod.fst = st₁.1.map Prod.fst := by
      intro ds
      induction ds with
      | nil => intro st₁; rfl
      | cons d rest ih =>
        intro st₁
        rw [List.foldl_cons, ih, normDedStep_mapFst]
    rw [← hst]
    exact this _ _

theorem normPairsFold_mapFst (ps : List (Str × Str)) (st : Table × List Issue) :
    ((ps.foldl normPair st).1).map Prod.fst = st.1.map Prod.fst := by
  induction ps generalizing st with
  | nil => rfl
  | cons pv rest ih => rw [List.foldl_cons, ih, normPair_mapFst]

theorem applyDeductibleStructure_mapFst (T : Table) :
    ((applyDeductibleStructure T).1).map Prod.fst = T.map Prod.fst :=
  normPairsFold_mapFst _ _

theorem applyDeductibleStructure_frozen (T : Table) (k : PriceKey)
    (h : ∀ e ∈ (applyDeductibleStructure T).2, e.key ≠ k) :
    price (applyDeductibleStructure T).1 k = price T k :=
  foldl_frozen_of_no_log normPair normPair_mono normPair_write_log NORM_PAIRS (T, []) k h

theorem repairStep_write_log (st : Table × List Issue) (c : Constraint) (k : PriceKey)
    (h : price (repairStep st c).1 k ≠ price st.1 k) :
    ∃ e ∈ (repairStep st c).2, e.key = k := by
  by_cases hcond : price st.1 c.right <
      qSub (qMul (price st.1 c.left) (qAdd 1 (marginOf c))) TOL
  · rw [repairStep_eq_write hcond] at h ⊢
    by_cases hk : k = c.right
    · subst hk
      exact ⟨_, List.mem_append_right _ (List.mem_singleton_self _), rfl⟩
    · rw [price_setVal_ne _ _ _ _ hk] at h
      exact absurd rfl h
  · rw [repairStep_eq_skip hcond] at h
    exact absurd rfl h

theorem repairFold_mapFst (cs : List Constraint) (st : Table × List Issue)
    (h : ∀ c ∈ cs, c.right ∈ st.1.map Prod.fst) :
    ((cs.foldl repairStep st).1).map Prod.fst = st.1.map Prod.fst := by
  induction cs generalizing st with
  | nil => rfl
  | cons c rest ih =>
    have hstep : ((repairStep st c).1).map Prod.fst = st.1.map Prod.fst := by
      unfold repairStep
      split
      · exact mapFst_setVal_of_mem _ _ _ (h c (List.mem_cons_self _ _))
      · rfl
    rw [List.foldl_cons, ih _ (fun e he => hstep ▸ h e (List.mem_cons_of_mem _ he)), hstep]

theorem repairFold_issue_keys (cs : List Constraint) (st : Table × List Issue) :
    ∀ e ∈ (cs.foldl repairStep st).2, e ∈ st.2 ∨ ∃ c ∈ cs, e.key = c.right := by
  induction cs generalizing st with
  | nil => exact fun e he => Or.inl he
  | cons c rest ih =>
    intro e he
    rw [List.foldl_cons] at he
    rcases ih (repairStep st c) e he with hin | ⟨c₀, hc₀, hk⟩
    · unfold repairStep at hin
      split at hin
      · rcases List.mem_append.mp hin with hin | hin
        · exact Or.inl hin
        · rcases List.mem_singleton.mp hin with rfl
          exact Or.inr ⟨c, List.mem_cons_self _ _, rfl⟩
      · exact Or.inl hin
    · exact Or.inr ⟨c₀, List.mem_cons_of_mem _ hc₀, hk⟩

/-! ### Further table and pipeline lemmas -/

theorem get?_some_of_mem_mapFst {α β : Type} [DecidableEq α] {l : List (α × β)} {k : α}
    (h : k ∈ l.map Prod.fst) : ∃ v, alistGet? l k = some v := by
  induction l with
  | nil => simp at h
  | cons hd t ih =>
    obtain ⟨a, b⟩ := hd
    by_cases hk : a = k
    · exact ⟨b, by simp [alistGet?, hk]⟩
    · simp only [List.map_cons, List.mem_cons] at h
      rcases h with rfl | h'
      · exact absurd rfl hk
      · rcases ih h' with ⟨w, hw⟩
        exact ⟨w, by simp [alistGet?, hk, hw]⟩

theorem mem_mapFst_setVal {α β : Type} [DecidableEq α] {l : List (α × β)} {k : α} {v : β}
    {x : α} (h : x ∈ (setVal l k v).map Prod.fst) : x ∈ l.map Prod.fst ∨ x = k := by
  rcases List.mem_map.mp h with ⟨⟨a, b⟩, hab, rfl⟩
  rcases mem_setVal hab with h' | h'
  · exact Or.inl (List.mem_map_of_mem _ h')
  · rw [Prod.mk.injEq] at h'
    exact Or.inr h'.1

/-- Two tables with the same duplicate-free key sequence and the same
`price` at every key are equal. -/
theorem alist_ext_price {A B : Table} (hfst : A.map Prod.fst = B.map Prod.fst)
    (hnd : (A.map Prod.fst).Nodup) (hprice : ∀ k, price A k = price B k) : A = B := by
  refine alist_ext hfst hnd fun k => ?_
  by_cases hk : k ∈ A.map Prod.fst
  · rcases get?_some_of_mem_mapFst hk with ⟨a, ha⟩
    rcases get?_some_of_mem_mapFst (hfst ▸ hk) with ⟨b, hb⟩
    have hab := hprice k
    unfold price at hab
    rw [ha, hb, Option.getD_some, Option.getD_some] at hab
    rw [ha, hb, hab]
  · rw [get?_eq_none_of_not_mem hk, get?_eq_none_of_not_mem (hfst ▸ hk)]

theorem price_of_get {T : Table} {k : PriceKey} {w : ℚ} (h : alistGet? T k = some w) :
    price T k = w := by
  unfold price
  rw [h, Option.getD_some]

theorem repairStep_mono (st : Table × List Issue) (c : Constraint) :
    ∃ e, (repairStep st c).2 = st.2 ++ e := by
  rcases repairStep_snd_prefix st c with ⟨e, he, -⟩
  exact ⟨e, he⟩

theorem fixKeyed_mapFst (T : Table) : (fixKeyed T).1.map Prod.fst = T.map Prod.fst := by
  unfold fixKeyed
  have hmem : ∀ c ∈ sortByRank (buildConstraints (applyDeductibleStructure T).1),
      c.right ∈ (applyDeductibleStructure T).1.map Prod.fst := fun c hc =>
    (endpoints_mem_of_mem_buildConstraints (mem_sortByRank.mp hc)).2
  rw [repairFold_mapFst _ _ hmem, applyDeductibleStructure_mapFst]

theorem fixKeyed_issues_split (T : Table) :
    ∃ E, (fixKeyed T).2 = (applyDeductibleStructure T).2 ++ E := by
  unfold fixKeyed
  exact foldl_issues_mono repairStep repairStep_mono _ _

/-- If the pipeline reports no issues, the keyed table comes back exactly
as parsed: no price was changed silently. -/
theorem fixKeyed_fst_of_no_issues (T : Table) (hnd : (T.map Prod.fst).Nodup)
    (h : (fixKeyed T).2 = []) : (fixKeyed T).1 = T := by
  obtain ⟨E, hE⟩ := fixKeyed_issues_split T
  rw [h] at hE
  have hsplit := List.append_eq_nil.mp hE.symm
  have hfold : ((sortByRank (buildConstraints (applyDeductibleStructure T).1)).foldl repairStep
      (applyDeductibleStructure T)).2 = [] := h
  have hprice : ∀ k, price (fixKeyed T).1 k = price T k := by
    intro k
    have h1 : price (fixKeyed T).1 k = price (applyDeductibleStructure T).1 k :=
      foldl_frozen_of_no_log repairStep repairStep_mono repairStep_write_log _ _ k
        (fun e he => absurd (hfold ▸ he) (List.not_mem_nil e))
    have h2 : price (applyDeductibleStructure T).1 k = price T k :=
      applyDeductibleStructure_frozen T k
        (fun e he => absurd (hsplit.1 ▸ he) (List.not_mem_nil e))
    rw [h1, h2]
  have hndF : ((fixKeyed T).1.map Prod.fst).Nodup := by
    rw [fixKeyed_mapFst]
    exact hnd
  exact alist_ext_price (fixKeyed_mapFst T) hndF hprice

/-- A successful parse yields a duplicate-free keyed table whose keys all
have the parsed shape. -/
theorem parseTableGo_invariant : ∀ (l : List (Str × ℚ)) (acc K : Table),
    (acc.map Prod.fst).Nodup → (∀ k ∈ acc.map Prod.fst, ParsedShape k) →
    parseTableGo acc l = .ok K →
    (K.map Prod.fst).Nodup ∧ ∀ k ∈ K.map Prod.fst, ParsedShape k := by
  intro l
  induction l with
  | nil =>
    intro acc K hnd hps h
    unfold parseTableGo at h
    rw [Except.ok.injEq] at h
    subst h
    exact ⟨hnd, hps⟩
  | cons sv rest ih =>
    intro acc K hnd hps h
    obtain ⟨s, v⟩ := sv
    unfold parseTableGo at h
    rcases hf : fromStr s with _ | k
    · simp only [hf] at h
      exact Except.noConfusion h
    · simp only [hf] at h
      refine ih (setVal acc k v) K (mapFst_setVal_nodup hnd) ?_ h
      intro k' hk'
      rcases mem_mapFst_setVal hk' with h' | rfl
      · exact hps k' h'
      · exact fromStr_parsedShape hf

theorem fromStr_toStrD {k : PriceKey} (h : ParsedShape k) : fromStr (toStrD k) = some k := by
  rcases fromStr_toStr_of_parsedShape h with ⟨s, hs, hr⟩
  unfold toStrD
  rw [hs, Option.getD_some]
  exact hr

theorem serializeTable_mapFst (T : Table) :
    (serializeTable T).map Prod.fst = (T.map Prod.fst).map toStrD := by
  unfold serializeTable
  rw [List.map_map, List.map_map]
  rfl

/-- Re-parsing a serialized keyed table (duplicate-free, all keys of parsed
shape) rebuilds the same keyed table. -/
theorem parseTableGo_serialize : ∀ (K acc : Table),
    ((acc ++ K).map Prod.fst).Nodup →
    (∀ k ∈ K.map Prod.fst, ParsedShape k) →
    parseTableGo acc (serializeTable K) = .ok (acc ++ K) := by
  intro K
  induction K with
  | nil =>
    intro acc _ _
    show parseTableGo acc [] = .ok (acc ++ [])
    rw [List.append_nil]
    rfl
  | cons kv K' ih =>
    intro acc hnd hps
    obtain ⟨k, v⟩ := kv
    have hk : ParsedShape k := hps k (by simp)
    show parseTableGo acc ((toStrD k, v) :: serializeTable K') = .ok (acc ++ (k, v) :: K')
    unfold parseTableGo
    simp only [fromStr_toStrD hk]
    have hknotacc : k ∉ acc.map Prod.fst := by
      intro hmem
      rw [List.map_append] at hnd
      rcases List.nodup_append.mp hnd with ⟨-, -, hdisj⟩
      exact hdisj hmem (by simp)
    rw [setVal_append_of_not_mem _ _ _ hknotacc]
    have hnd' : (((acc ++ [(k, v)]) ++ K').map Prod.fst).Nodup := by
      rw [List.append_assoc]
      exact hnd
    have := ih (acc ++ [(k, v)]) hnd' (fun k' h' => hps k' (by simp [h']))
    rw [this, List.append_assoc, List.singleton_append]

/-- Parsing a raw table whose keys are canonical serializations of their
parsed keys (and duplicate-free) succeeds, and the parsed table serializes
back to exactly the input. -/
theorem parseTableGo_canonical : ∀ (R : List (Str × ℚ)) (acc : Table),
    (∀ s ∈ R.map Prod.fst, Option.map toStrD (fromStr s) = some s) →
    (R.map Prod.fst).Nodup →
    (∀ k' ∈ acc.map Prod.fst, toStrD k' ∉ R.map Prod.fst) →
    ∃ K, parseTableGo acc R = .ok (acc ++ K) ∧ serializeTable K = R := by
  intro R
  induction R with
  | nil =>
    intro acc _ _ _
    exact ⟨[], by rw [List.append_nil]; rfl, rfl⟩
  | cons sv R' ih =>
    intro acc hcanon hnd hacc
    obtain ⟨s, v⟩ := sv
    have hs := hcanon s (by simp)
    rcases hf : fromStr s with _ | k
    · rw [hf, Option.map_none'] at hs
      cases hs
    · rw [hf, Option.map_some'] at hs
      have hts : toStrD k = s := Option.some.inj hs
      have hknotacc : k ∉ acc.map Prod.fst := by
        intro hmem
        exact hacc k hmem (by rw [hts]; simp)
      have hndc : (s :: R'.map Prod.fst).Nodup := by
        rw [List.map_cons] at hnd
        exact hnd
      have hnd2 := List.nodup_cons.mp hndc
      have hacc' : ∀ k' ∈ (acc ++ [(k, v)]).map Prod.fst, toStrD k' ∉ R'.map Prod.fst := by
        intro k' hk'
        rw [List.map_append] at hk'
        rcases List.mem_append.mp hk' with h' | h'
        · intro hmem
          exact hacc k' h' (by simp [hmem])
        · have h'' : k' ∈ [k] := by simpa using h'
          obtain rfl := List.mem_singleton.mp h''
          rw [hts]
          exact hnd2.1
      obtain ⟨K', hK', hser⟩ := ih (acc ++ [(k, v)])
        (fun s' h' => hcanon s' (by simp [h'])) hnd2.2 hacc'
      refine ⟨(k, v) :: K', ?_, ?_⟩
      · show parseTableGo acc ((s, v) :: R') = .ok (acc ++ (k, v) :: K')
        unfold parseTableGo
        simp only [hf]
        rw [setVal_append_of_not_mem _ _ _ hknotacc, hK', List.append_assoc,
          List.singleton_append]
      · show (toStrD k, v) :: serializeTable K' = (s, v) :: R'
        rw [hts, hser]

/-! ### Deductible-ladder lemmas -/

theorem key_ne_of_ded {p v : Str} {d d' : Int} (h : d ≠ d') :
    (⟨p, some v, some d⟩ : PriceKey) ≠ ⟨p, some v, some d'⟩ := by
  intro he
  rw [PriceKey.mk.injEq] at he
  exact h (Option.some.inj he.2.2)

theorem pair_key_ne {p v : Str} {q : Str × Str} (h : q ≠ (p, v)) (d₀ d' : Int) :
    (⟨p, some v, some d₀⟩ : PriceKey) ≠ ⟨q.1, some q.2, some d'⟩ := by
  intro he
  rw [PriceKey.mk.injEq] at he
  exact h (Prod.ext_iff.mpr ⟨he.1.symm, (Option.some.inj he.2.1).symm⟩)

theorem normDedStep_get_other {bk : PriceKey} {bp : ℚ} {p v : Str}
    {st : Table × List Issue} {d : Int} {k : PriceKey}
    (h : k ≠ ⟨p, some v, some d⟩) :
    alistGet? (normDedStep bk bp p v st d).1 k = alistGet? st.1 k := by
  unfold normDedStep
  split
  · rfl
  · split
    · exact alistGet?_setVal_ne _ _ _ _ h
    · rfl

theorem normPair_get_other (st : Table × List Issue) (pv : Str × Str) (k : PriceKey)
    (h : ∀ d : Int, k ≠ ⟨pv.1, some pv.2, some d⟩) :
    alistGet? (normPair st pv).1 k = alistGet? st.1 k := by
  unfold normPair
  split
  · rfl
  · rename_i basePrice hb
    have hfold : ∀ (ds : List Int) (st₁ : Table × List Issue),
        alistGet? ((ds.foldl (normDedStep ⟨pv.1, some pv.2, some 100⟩ basePrice pv.1 pv.2) st₁).1) k =
          alistGet? st₁.1 k := by
      intro ds
      induction ds with
      | nil => intro st₁; rfl
      | cons d rest ihd =>
        intro st₁
        rw [List.foldl_cons, ihd, normDedStep_get_other (h d)]
    exact hfold _ _

theorem normPairsFold_get_frozen (ps : List (Str × Str)) (st : Table × List Issue)
    (k : PriceKey) (h : ∀ q ∈ ps, ∀ d : Int, k ≠ ⟨q.1, some q.2, some d⟩) :
    alistGet? (ps.foldl normPair st).1 k = alistGet? st.1 k := by
  induction ps generalizing st with
  | nil => rfl
  | cons q rest ih =>
    rw [List.foldl_cons, ih _ (fun q' hq' => h q' (List.mem_cons_of_mem _ hq')),
      normPair_get_other _ _ _ (h q (List.mem_cons_self _ _))]

/-- Each inner normalization step leaves its own key within the tolerance
of `round_to_step(base * discount)`. -/
theorem normDedStep_own {bk : PriceKey} {bp : ℚ} {p v : Str} {st : Table × List Issue}
    {d : Int} {oldPrice : ℚ}
    (hold : alistGet? st.1 ⟨p, some v, some d⟩ = some oldPrice) :
    ∃ w, alistGet? (normDedStep bk bp p v st d).1 ⟨p, some v, some d⟩ = some w ∧
      |roundToStep (bp * DEDUCTIBLE_DISCOUNTS d) - w| ≤ TOL := by
  by_cases hcond : TOL < qAbs (qSub (roundToStep (qMul bp (DEDUCTIBLE_DISCOUNTS d))) oldPrice)
  · rw [normDedStep_eq_write hold hcond]
    refine ⟨roundToStep (qMul bp (DEDUCTIBLE_DISCOUNTS d)), alistGet?_setVal_self _ _ _, ?_⟩
    rw [qMul_eq, sub_self, abs_zero]
    exact le_of_lt TOL_pos
  · rw [normDedStep_eq_skip hold hcond]
    refine ⟨oldPrice, hold, ?_⟩
    rw [qAbs_eq, qSub_eq, qMul_eq, not_lt] at hcond
    exact hcond

/-- After one (product, variant) pass with anchor value `base`, every
present deductible key of the pair sits within the tolerance of
`round_to_step(base * discount)`. -/
theorem normPair_own {st : Table × List Issue} {p v : Str} {base : ℚ}
    (hbase : alistGet? st.1 ⟨p, some v, some 100⟩ = some base)
    {d : Int} (hd : d = 100 ∨ d = 200 ∨ d = 500) {oldPrice : ℚ}
    (hold : alistGet? st.1 ⟨p, some v, some d⟩ = some oldPrice) :
    ∃ w, alistGet? (normPair st (p, v)).1 ⟨p, some v, some d⟩ = some w ∧
      |roundToStep (base * DEDUCTIBLE_DISCOUNTS d) - w| ≤ TOL := by
  unfold normPair
  dsimp only
  simp only [hbase]
  simp only [DEDUCTIBLES, List.foldl_cons, List.foldl_nil]
  rcases hd with rfl | rfl | rfl
  · obtain ⟨w, hw, hbound⟩ := @normDedStep_own ⟨p, some v, some 100⟩ base p v st 100 oldPrice hold
    refine ⟨w, ?_, hbound⟩
    rw [normDedStep_get_other (key_ne_of_ded (show (100 : ℤ) ≠ 500 by decide)),
      normDedStep_get_other (key_ne_of_ded (show (100 : ℤ) ≠ 200 by decide)), hw]
  · have h1 : alistGet? ((normDedStep ⟨p, some v, some 100⟩ base p v st 100).1)
        ⟨p, some v, some 200⟩ = some oldPrice := by
      rw [normDedStep_get_other (key_ne_of_ded (show (200 : ℤ) ≠ 100 by decide))]
      exact hold
    obtain ⟨w, hw, hbound⟩ := @normDedStep_own ⟨p, some v, some 100⟩ base p v _ 200 oldPrice h1
    refine ⟨w, ?_, hbound⟩
    rw [normDedStep_get_other (key_ne_of_ded (show (200 : ℤ) ≠ 500 by decide)), hw]
  · have h1 : alistGet? ((normDedStep ⟨p, some v, some 100⟩ base p v st 100).1)
        ⟨p, some v, some 500⟩ = some oldPrice := by
      rw [normDedStep_get_other (key_ne_of_ded (show (500 : ℤ) ≠ 100 by decide))]
      exact hold
    have h2 : alistGet? ((normDedStep ⟨p, some v, some 100⟩ base p v
        (normDedStep ⟨p, some v, some 100⟩ base p v st 100) 200).1)
        ⟨p, some v, some 500⟩ = some oldPrice := by
      rw [normDedStep_get_other (key_ne_of_ded (show (500 : ℤ) ≠ 200 by decide))]
      exact h1
    exact @normDedStep_own ⟨p, some v, some 100⟩ base p v _ 500 oldPrice h2

/-- The full normalization: for a visited pair with anchor value `base` in
the input, every present deductible key ends within the tolerance of
`round_to_step(base * discount)`. -/
theorem applyDeductibleStructure_own {T : Table} {p v : Str}
    (hpv : (p, v) ∈ NORM_PAIRS) {base : ℚ}
    (hbase : alistGet? T ⟨p, some v, some 100⟩ = some base)
    {d : Int} (hd : d = 100 ∨ d = 200 ∨ d = 500) {oldPrice : ℚ}
    (hold : alistGet? T ⟨p, some v, some d⟩ = some oldPrice) :
    ∃ w, alistGet? (applyDeductibleStructure T).1 ⟨p, some v, some d⟩ = some w ∧
      |roundToStep (base * DEDUCTIBLE_DISCOUNTS d) - w| ≤ TOL := by
  rcases List.append_of_mem hpv with ⟨l1, l2, hsplit⟩
  have hnd : NORM_PAIRS.Nodup := by decide
  rw [hsplit, List.nodup_append] at hnd
  obtain ⟨-, hnd2, hdisj⟩ := hnd
  have hpv_not_l1 : (p, v) ∉ l1 := fun hmem => hdisj hmem (List.mem_cons_self _ _)
  have hpv_not_l2 : (p, v) ∉ l2 := (List.nodup_cons.mp hnd2).1
  unfold applyDeductibleStructure
  rw [hsplit, List.foldl_append, List.foldl_cons]
  have hfr1 : ∀ d₀ : Int, alistGet? ((l1.foldl normPair (T, [])).1) ⟨p, some v, some d₀⟩ =
      alistGet? T ⟨p, some v, some d₀⟩ := fun d₀ =>
    normPairsFold_get_frozen l1 (T, []) _
      (fun q hq d' => pair_key_ne (fun he => hpv_not_l1 (he ▸ hq)) d₀ d')
  obtain ⟨w, hw, hbound⟩ := normPair_own ((hfr1 100).trans hbase) hd ((hfr1 d).trans hold)
  refine ⟨w, ?_, hbound⟩
  rw [normPairsFold_get_frozen l2 _ _
    (fun q hq d' => pair_key_ne (fun he => hpv_not_l2 (he ▸ hq)) d d'), hw]

theorem DEDUCTIBLE_DISCOUNTS_100 : DEDUCTIBLE_DISCOUNTS 100 = 1 := rfl

theorem DEDUCTIBLE_DISCOUNTS_200 : DEDUCTIBLE_DISCOUNTS 200 = 9/10 := by
  rw [show DEDUCTIBLE_DISCOUNTS 200 = mkRat 9 10 from rfl, mkRat_eq_q]
  norm_num

theorem DEDUCTIBLE_DISCOUNTS_500 : DEDUCTIBLE_DISCOUNTS 500 = 4/5 := by
  rw [show DEDUCTIBLE_DISCOUNTS 500 = mkRat 4 5 from rfl, mkRat_eq_q]
  norm_num

theorem TOL_eq : TOL = 1/1000000 := by
  rw [TOL, mkRat_eq_q]
  norm_num

/-- Two values within the tolerance of grid-rounded targets more than a
grid step apart are strictly ordered. -/
theorem ladder_lt {x y w w' : ℚ} (hgap : x + 10 < y)
    (hx : |roundToStep x - w| ≤ TOL) (hy : |roundToStep y - w'| ≤ TOL) : w < w' := by
  have h1 := roundToStep_lt_roundToStep hgap
  have h2 := grid_gap (isGrid_roundToStep x) (isGrid_roundToStep y) h1
  rw [abs_le, TOL_eq] at hx hy
  obtain ⟨hx1, hx2⟩ := hx
  obtain ⟨hy1, hy2⟩ := hy
  linarith

/-! ## The claims -/

/-- C1 (corrected).  As stated — "after the single pass every generated
constraint holds with at least its margin, `fixed[right] ≥
(1 + margin) * fixed[left]`" — the claim is false: lifting a violating
price to `round_to_step(required)` can round *down* by up to half a grid
step, leaving the pair short of the full margin.  The amended bound, with
the grid slack of half a rounding step (5), holds for every input table and
every generated constraint: `fixed[right] ≥ (1 + margin) * fixed[left] - 5`,
where `margin` is 0.10 for product-kind and 0.05 for variant-kind
constraints (`marginOf`). -/
theorem c1_margin_up_to_grid_slack (T : Table) (c : Constraint)
    (hc : c ∈ buildConstraints (applyDeductibleStructure T).1) :
    (1 + marginOf c) * price (fixKeyed T).1 c.left - 5 ≤ price (fixKeyed T).1 c.right := by
  have h := fixKeyed_margin_bound T c hc
  linarith [h, mul_comm (price (fixKeyed T).1 c.left) (1 + marginOf c)]

/-- C1 witness: the amended bound evaluated on a concrete two-key table. -/
theorem c1_witness :
    (1 + marginOf ⟨⟨cascoStr, some basicStr, some 100⟩, ⟨cascoStr, some comfortStr, some 100⟩,
        .comfortMoreThanBasic cascoStr 100⟩) *
      price (fixKeyed [(⟨cascoStr, some basicStr, some 100⟩, 810),
        (⟨cascoStr, some comfortStr, some 100⟩, 700)]).1 ⟨cascoStr, some basicStr, some 100⟩ - 5 ≤
    price (fixKeyed [(⟨cascoStr, some basicStr, some 100⟩, 810),
        (⟨cascoStr, some comfortStr, some 100⟩, 700)]).1 ⟨cascoStr, some comfortStr, some 100⟩ :=
  c1_margin_up_to_grid_slack _ _ (by decide)

/-- C1 counterexample: on the table
`{casco_basic_100: 810, casco_comfort_100: 700}` the generated
basic-below-comfort constraint (variant kind, margin 0.05) ends with
`fixed[comfort] = 850 < 1.05 * 810 = 850.5`, so the claim as stated fails. -/
theorem c1_counterexample :
    (⟨⟨cascoStr, some basicStr, some 100⟩, ⟨cascoStr, some comfortStr, some 100⟩,
        .comfortMoreThanBasic cascoStr 100⟩ : Constraint) ∈
      buildConstraints (applyDeductibleStructure [(⟨cascoStr, some basicStr, some 100⟩, 810),
        (⟨cascoStr, some comfortStr, some 100⟩, 700)]).1 ∧
    marginOf ⟨⟨cascoStr, some basicStr, some 100⟩, ⟨cascoStr, some comfortStr, some 100⟩,
        .comfortMoreThanBasic cascoStr 100⟩ = 1/20 ∧
    price (fixKeyed [(⟨cascoStr, some basicStr, some 100⟩, 810),
        (⟨cascoStr, some comfortStr, some 100⟩, 700)]).1 ⟨cascoStr, some comfortStr, some 100⟩ <
      (1 + 1/20) *
        price (fixKeyed [(⟨cascoStr, some basicStr, some 100⟩, 810),
          (⟨cascoStr, some comfortStr, some 100⟩, 700)]).1 ⟨cascoStr, some basicStr, some 100⟩ := by
  refine ⟨by decide, ?_, ?_⟩
  · rw [show marginOf ⟨⟨cascoStr, some basicStr, some 100⟩, ⟨cascoStr, some comfortStr, some 100⟩,
        .comfortMoreThanBasic cascoStr 100⟩ = VARIANT_MARGIN from by decide, VARIANT_MARGIN_eq]
  · rw [show price (fixKeyed [(⟨cascoStr, some basicStr, some 100⟩, 810),
        (⟨cascoStr, some comfortStr, some 100⟩, 700)]).1 ⟨cascoStr, some comfortStr, some 100⟩ =
        850 from by decide,
      show price (fixKeyed [(⟨cascoStr, some basicStr, some 100⟩, 810),
        (⟨cascoStr, some comfortStr, some 100⟩, 700)]).1 ⟨cascoStr, some basicStr, some 100⟩ =
        810 from by decide]
    norm_num

/-- C2 (corrected).  As stated — the final table satisfies every generated
constraint as a strict inequality `fixed[left] < fixed[right]` — the claim
is false: with small prices the grid-rounded repair cannot push the right
side strictly above the left (and an already-equal pair of zero prices is
not repaired at all).  The amended statement holds: whenever the final left
price exceeds 100, the strict inequality holds for every generated
constraint, covering all four families (mtpl below limited_casco,
limited below casco, compact/basic below comfort, comfort below premium). -/
theorem c2_strict_when_left_above_hundred (T : Table) (c : Constraint)
    (hc : c ∈ buildConstraints (applyDeductibleStructure T).1)
    (hL : 100 < price (fixKeyed T).1 c.left) :
    price (fixKeyed T).1 c.left < price (fixKeyed T).1 c.right := by
  have hb := fixKeyed_margin_bound T c hc
  have hm := (marginOf_bounds c).1
  rw [VARIANT_MARGIN_eq] at hm
  have h0 : (0 : ℚ) ≤ price (fixKeyed T).1 c.left := by linarith
  have hmul := mul_le_mul_of_nonneg_left hm h0
  have hexp : price (fixKeyed T).1 c.left * (1 + marginOf c) =
      price (fixKeyed T).1 c.left + price (fixKeyed T).1 c.left * marginOf c := by ring
  linarith

/-- C2 witness: strictness on a concrete table whose left price ends above
100. -/
theorem c2_witness :
    price (fixKeyed [(⟨cascoStr, some basicStr, some 100⟩, 810),
        (⟨cascoStr, some comfortStr, some 100⟩, 700)]).1 ⟨cascoStr, some basicStr, some 100⟩ <
    price (fixKeyed [(⟨cascoStr, some basicStr, some 100⟩, 810),
        (⟨cascoStr, some comfortStr, some 100⟩, 700)]).1 ⟨cascoStr, some comfortStr, some 100⟩ :=
  c2_strict_when_left_above_hundred _
    ⟨⟨cascoStr, some basicStr, some 100⟩, ⟨cascoStr, some comfortStr, some 100⟩,
      .comfortMoreThanBasic cascoStr 100⟩ (by decide) (by decide)

/-- C2 counterexample: on `{casco_basic_200: 0, casco_comfort_200: 0}` the
basic-below-comfort constraint is generated but the final table has
`fixed[basic] = fixed[comfort] = 0`, so the strict inequality fails. -/
theorem c2_counterexample :
    (⟨⟨cascoStr, some basicStr, some 200⟩, ⟨cascoStr, some comfortStr, some 200⟩,
        .comfortMoreThanBasic cascoStr 200⟩ : Constraint) ∈
      buildConstraints (applyDeductibleStructure [(⟨cascoStr, some basicStr, some 200⟩, 0),
        (⟨cascoStr, some comfortStr, some 200⟩, 0)]).1 ∧
    ¬ (price (fixKeyed [(⟨cascoStr, some basicStr, some 200⟩, 0),
          (⟨cascoStr, some comfortStr, some 200⟩, 0)]).1 ⟨cascoStr, some basicStr, some 200⟩ <
        price (fixKeyed [(⟨cascoStr, some basicStr, some 200⟩, 0),
          (⟨cascoStr, some comfortStr, some 200⟩, 0)]).1 ⟨cascoStr, some comfortStr, some 200⟩) := by
  decide

/-- C5 (corrected).  As stated — every repair-pass update writes a price
strictly greater than the one it replaces — the claim is false: when the
old right price lies strictly between the grid-rounded requirement and the
requirement minus the tolerance, the "raise" writes a *lower* price (e.g.
853 is replaced by 850).  The amended statement holds: every repair-pass
log entry satisfies `new > old - 5`, i.e. a repair write can drop a stored
price by less than half a rounding step, never more. -/
theorem c5_update_drop_below_half_step (T : Table) (e : Issue)
    (he : e ∈ (fixKeyed T).2) (hrep : e.isRepair = true) :
    e.oldPrice - 5 < e.newPrice := by
  unfold fixKeyed at he
  refine repairFold_issues_bound _ _ ?_ e he hrep
  intro e' he' hrep'
  have := applyDeductibleStructure_issues T e' he'
  rw [hrep'] at this
  cases this

/-- C5 witness: the amended bound on the concrete downward update. -/
theorem c5_witness :
    (Issue.adjusted ⟨cascoStr, some comfortStr, some 200⟩ 853 850
        (.comfortMoreThanBasic cascoStr 200) (mkRat 1 20)
        ⟨cascoStr, some basicStr, some 200⟩ (mkRat 1625 2)).oldPrice - 5 <
    (Issue.adjusted ⟨cascoStr, some comfortStr, some 200⟩ 853 850
        (.comfortMoreThanBasic cascoStr 200) (mkRat 1 20)
        ⟨cascoStr, some basicStr, some 200⟩ (mkRat 1625 2)).newPrice :=
  c5_update_drop_below_half_step
    [(⟨cascoStr, some basicStr, some 200⟩, mkRat 1625 2),
     (⟨cascoStr, some comfortStr, some 200⟩, 853)] _ (by decide) (by decide)

/-- C5 counterexample: on `{casco_basic_200: 812.5, casco_comfort_200: 853}`
the repair pass logs an adjustment of `casco_comfort_200` from 853 down to
850 — a price update that *lowers* the stored price, refuting the claim that
every repair update is an upward move. -/
theorem c5_counterexample :
    (Issue.adjusted ⟨cascoStr, some comfortStr, some 200⟩ 853 850
        (.comfortMoreThanBasic cascoStr 200) (mkRat 1 20)
        ⟨cascoStr, some basicStr, some 200⟩ (mkRat 1625 2)) ∈
      (fixKeyed [(⟨cascoStr, some basicStr, some 200⟩, mkRat 1625 2),
        (⟨cascoStr, some comfortStr, some 200⟩, 853)]).2 ∧
    (Issue.adjusted ⟨cascoStr, some comfortStr, some 200⟩ 853 850
        (.comfortMoreThanBasic cascoStr 200) (mkRat 1 20)
        ⟨cascoStr, some basicStr, some 200⟩ (mkRat 1625 2)).isRepair = true ∧
    (Issue.adjusted ⟨cascoStr, some comfortStr, some 200⟩ 853 850
        (.comfortMoreThanBasic cascoStr 200) (mkRat 1 20)
        ⟨cascoStr, some basicStr, some 200⟩ (mkRat 1625 2)).newPrice <
    (Issue.adjusted ⟨cascoStr, some comfortStr, some 200⟩ 853 850
        (.comfortMoreThanBasic cascoStr 200) (mkRat 1 20)
        ⟨cascoStr, some basicStr, some 200⟩ (mkRat 1625 2)).oldPrice := by
  decide

/-- C6 (confirmed).  Round-trip law: for every `PriceKey` that
`PriceKey.from_str` can produce from some raw string, serializing it with
`to_str` succeeds and re-parsing the result yields an equal key. -/
theorem c6_roundtrip (raw : Str) (k : PriceKey) (h : fromStr raw = some k) :
    ∃ s, toStr k = some s ∧ fromStr s = some k :=
  fromStr_toStr_of_parsedShape (fromStr_parsedShape h)

/-- C6 witness: the round trip on the key parsed from "casco_basic_100". -/
theorem c6_witness :
    ∃ s, toStr ⟨cascoStr, some basicStr, some 100⟩ = some s ∧
      fromStr s = some ⟨cascoStr, some basicStr, some 100⟩ :=
  c6_roundtrip "casco_basic_100".data _ (by decide)

/-- C7 (confirmed).  `PriceKey.from_str` fails exactly on raw keys matching
none of the three accepted shapes ("mtpl", "limited_casco_<variant>_<ded>",
"casco_<variant>_<ded>" with an integer-parseable trailing segment,
`AcceptedShape`), and `validate_and_fix_prices` propagates the error for
any input containing such a key, returning no table. -/
theorem c7_parse_error_iff_bad_shape (raw : Str) :
    ((fromStr raw).isSome = true ↔ AcceptedShape raw) ∧
    (∀ tbl : List (Str × ℚ), (∃ v, (raw, v) ∈ tbl) → fromStr raw = none →
      ∃ e, validate tbl = .error e) := by
  refine ⟨fromStr_isSome_iff_acceptedShape raw, ?_⟩
  rintro tbl ⟨v, hmem⟩ hnone
  rcases @parseTableGo_error tbl [] raw v hmem hnone with ⟨e, he⟩
  refine ⟨e, ?_⟩
  unfold validate parseTable
  rw [he]

/-- C7 witness: the unparseable key "foo" makes the whole call error out. -/
theorem c7_witness : ∃ e, validate [("foo".data, 5)] = .error e :=
  (c7_parse_error_iff_bad_shape "foo".data).2 [("foo".data, 5)] ⟨5, by decide⟩ (by decide)

/-- C10 (confirmed).  Geo-pricing Scenario D: with wages
`{ES: 2000, RS: 930}`, reference `ES` and `alpha = 1`,
`compute_country_factors` assigns `RS` the factor `930/2000 = 0.465`, and
`adjust_prices_for_country` applied to a price of 400 with rounding to the
nearest 5 yields 185. -/
theorem c10_geo_scenario :
    alistGet? (computeCountryFactors [("ES", 2000), ("RS", 930)] "ES" 1) "RS" =
      some (930/2000) ∧
    adjustPricesForCountry [("base", 400)] "RS"
      (computeCountryFactors [("ES", 2000), ("RS", 930)] "ES" 1) = [("base", 185)] := by
  constructor
  · rw [show ((930 : ℚ)/2000) = mkRat 93 200 by rw [mkRat_eq_q]; norm_num]
    decide
  · decide

/-- C3 (corrected).  As stated — `validate_and_fix_prices` is idempotent on
every input — the claim is false: a normalization write lands the price
exactly on `round_to_step(base * discount)` for the *old* anchor value, and
when the anchor itself was realigned in the same pass the ladder is
recomputed from the *new* anchor on the next run, producing further changes.
The amended statement holds: whenever a run reports no issues
(`validate_and_fix_prices(raw) == (F, [])`), re-running on `F` returns
`(F, [])` — the pipeline is idempotent from any issue-free state, and a
first run with an empty issue list certifies the table as a fixed point. -/
theorem c3_idempotent_when_no_issues (raw F : List (Str × ℚ))
    (h : validate raw = .ok (F, [])) : validate F = .ok (F, []) := by
  unfold validate parseTable at h
  rcases hp : parseTableGo [] raw with e | K
  · rw [hp] at h
    exact Except.noConfusion h
  · simp only [hp] at h
    rw [Except.ok.injEq, Prod.mk.injEq] at h
    obtain ⟨hF, hI⟩ := h
    have hinv := parseTableGo_invariant raw [] K (by simp) (by simp) hp
    have hfix : (fixKeyed K).1 = K := fixKeyed_fst_of_no_issues K hinv.1 hI
    have hser : parseTableGo [] (serializeTable K) = .ok K := by
      have := parseTableGo_serialize K [] (by simpa using hinv.1) hinv.2
      simpa using this
    subst hF
    rw [hfix]
    unfold validate parseTable
    simp only [hser]
    rw [hfix, hI]

/-- C3 witness: on the single-key table `{mtpl: 400}` a run reports no
issues, and the amended theorem applies to give the fixed point. -/
theorem c3_witness : validate [("mtpl".data, 400)] = .ok ([("mtpl".data, 400)], []) :=
  c3_idempotent_when_no_issues [("mtpl".data, 400)] [("mtpl".data, 400)] (by decide)

/-- C3 counterexample: on `{casco_basic_100: 816, casco_basic_200: 700}`
the first run aligns the pair to `(820, 730)` (730 was computed from the
old anchor 816), and a second run on that output realigns 730 to
`round_to_step(820 * 0.9) = 740`, so re-running an already-fixed table
changes a price — idempotence as stated fails. -/
theorem c3_counterexample :
    validate [("casco_basic_100".data, 816), ("casco_basic_200".data, 700)] =
      .ok ([("casco_basic_100".data, 820), ("casco_basic_200".data, 730)],
        [.aligned ⟨cascoStr, some basicStr, some 100⟩ 816 820
           ⟨cascoStr, some basicStr, some 100⟩ 816,
         .aligned ⟨cascoStr, some basicStr, some 200⟩ 700 730
           ⟨cascoStr, some basicStr, some 100⟩ 816]) ∧
    validate [("casco_basic_100".data, 820), ("casco_basic_200".data, 730)] ≠
      .ok ([("casco_basic_100".data, 820), ("casco_basic_200".data, 730)], []) := by
  constructor
  · decide
  · decide

/-- C4 (corrected).  As stated — the deductible ladder
`fixed[...500] < fixed[...200] < fixed[...100]` holds in the *final* output
whenever the 100-deductible anchor is present — the claim is false: with a
small anchor the grid rounding collapses the rungs (e.g. an anchor of 20
keeps the 200-deductible price at 20 as well, with no issue logged), and a
later repair can lift a deeper-deductible price past a shallower one.  The
amended statement holds for the normalization stage: after
`apply_deductible_structure`, for every visited (product, variant) pair
whose anchor value exceeds 100, the prices of the present deductible keys
are strictly decreasing in the deductible. -/
theorem c4_deductible_ladder (T : Table) (p v : Str) (hpv : (p, v) ∈ NORM_PAIRS)
    (base : ℚ) (hbase : alistGet? T ⟨p, some v, some 100⟩ = some base)
    (hbig : 100 < base) :
    (hasKey T ⟨p, some v, some 200⟩ = true →
      price (applyDeductibleStructure T).1 ⟨p, some v, some 200⟩ <
        price (applyDeductibleStructure T).1 ⟨p, some v, some 100⟩) ∧
    (hasKey T ⟨p, some v, some 500⟩ = true →
      price (applyDeductibleStructure T).1 ⟨p, some v, some 500⟩ <
        price (applyDeductibleStructure T).1 ⟨p, some v, some 100⟩) ∧
    (hasKey T ⟨p, some v, some 200⟩ = true → hasKey T ⟨p, some v, some 500⟩ = true →
      price (applyDeductibleStructure T).1 ⟨p, some v, some 500⟩ <
        price (applyDeductibleStructure T).1 ⟨p, some v, some 200⟩) := by
  obtain ⟨w1, hw1, hb1⟩ := applyDeductibleStructure_own hpv hbase (Or.inl rfl) hbase
  rw [DEDUCTIBLE_DISCOUNTS_100, mul_one] at hb1
  refine ⟨?_, ?_, ?_⟩
  · intro h200
    obtain ⟨o2, ho2⟩ := Option.isSome_iff_exists.mp h200
    obtain ⟨w2, hw2, hb2⟩ := applyDeductibleStructure_own hpv hbase (Or.inr (Or.inl rfl)) ho2
    rw [DEDUCTIBLE_DISCOUNTS_200] at hb2
    rw [price_of_get hw2, price_of_get hw1]
    exact ladder_lt (by linarith) hb2 hb1
  · intro h500
    obtain ⟨o5, ho5⟩ := Option.isSome_iff_exists.mp h500
    obtain ⟨w5, hw5, hb5⟩ := applyDeductibleStructure_own hpv hbase (Or.inr (Or.inr rfl)) ho5
    rw [DEDUCTIBLE_DISCOUNTS_500] at hb5
    rw [price_of_get hw5, price_of_get hw1]
    exact ladder_lt (by linarith) hb5 hb1
  · intro h200 h500
    obtain ⟨o2, ho2⟩ := Option.isSome_iff_exists.mp h200
    obtain ⟨o5, ho5⟩ := Option.isSome_iff_exists.mp h500
    obtain ⟨w2, hw2, hb2⟩ := applyDeductibleStructure_own hpv hbase (Or.inr (Or.inl rfl)) ho2
    obtain ⟨w5, hw5, hb5⟩ := applyDeductibleStructure_own hpv hbase (Or.inr (Or.inr rfl)) ho5
    rw [DEDUCTIBLE_DISCOUNTS_200] at hb2
    rw [DEDUCTIBLE_DISCOUNTS_500] at hb5
    rw [price_of_get hw5, price_of_get hw2]
    exact ladder_lt (by linarith) hb5 hb2

/-- C4 witness: on `{casco_basic_100: 800, casco_basic_200: 700,
casco_basic_500: 600}` the normalization produces the strict ladder
`640 < 720 < 800`. -/
theorem c4_witness :
    (hasKey [(⟨cascoStr, some basicStr, some 100⟩, 800), (⟨cascoStr, some basicStr, some 200⟩, 700),
        (⟨cascoStr, some basicStr, some 500⟩, 600)] ⟨cascoStr, some basicStr, some 200⟩ = true →
      price (applyDeductibleStructure [(⟨cascoStr, some basicStr, some 100⟩, 800),
          (⟨cascoStr, some basicStr, some 200⟩, 700), (⟨cascoStr, some basicStr, some 500⟩, 600)]).1
          ⟨cascoStr, some basicStr, some 200⟩ <
        price (applyDeductibleStructure [(⟨cascoStr, some basicStr, some 100⟩, 800),
          (⟨cascoStr, some basicStr, some 200⟩, 700), (⟨cascoStr, some basicStr, some 500⟩, 600)]).1
          ⟨cascoStr, some basicStr, some 100⟩) ∧
    (hasKey [(⟨cascoStr, some basicStr, some 100⟩, 800), (⟨cascoStr, some basicStr, some 200⟩, 700),
        (⟨cascoStr, some basicStr, some 500⟩, 600)] ⟨cascoStr, some basicStr, some 500⟩ = true →
      price (applyDeductibleStructure [(⟨cascoStr, some basicStr, some 100⟩, 800),
          (⟨cascoStr, some basicStr, some 200⟩, 700), (⟨cascoStr, some basicStr, some 500⟩, 600)]).1
          ⟨cascoStr, some basicStr, some 500⟩ <
        price (applyDeductibleStructure [(⟨cascoStr, some basicStr, some 100⟩, 800),
          (⟨cascoStr, some basicStr, some 200⟩, 700), (⟨cascoStr, some basicStr, some 500⟩, 600)]).1
          ⟨cascoStr, some basicStr, some 100⟩) ∧
    (hasKey [(⟨cascoStr, some basicStr, some 100⟩, 800), (⟨cascoStr, some basicStr, some 200⟩, 700),
        (⟨cascoStr, some basicStr, some 500⟩, 600)] ⟨cascoStr, some basicStr, some 200⟩ = true →
      hasKey [(⟨cascoStr, some basicStr, some 100⟩, 800), (⟨cascoStr, some basicStr, some 200⟩, 700),
        (⟨cascoStr, some basicStr, some 500⟩, 600)] ⟨cascoStr, some basicStr, some 500⟩ = true →
      price (applyDeductibleStructure [(⟨cascoStr, some basicStr, some 100⟩, 800),
          (⟨cascoStr, some basicStr, some 200⟩, 700), (⟨cascoStr, some basicStr, some 500⟩, 600)]).1
          ⟨cascoStr, some basicStr, some 500⟩ <
        price (applyDeductibleStructure [(⟨cascoStr, some basicStr, some 100⟩, 800),
          (⟨cascoStr, some basicStr, some 200⟩, 700), (⟨cascoStr, some basicStr, some 500⟩, 600)]).1
          ⟨cascoStr, some basicStr, some 200⟩) :=
  c4_deductible_ladder _ cascoStr basicStr (by decide) 800 (by decide) (by decide)

/-- C4 counterexample: on `{casco_basic_100: 20, casco_basic_200: 20}` the
anchor is present but the final output keeps both prices at 20 (the grid
rounding of `20 * 0.9 = 18` is 20 again, so nothing changes), and the
strict ladder `fixed[...200] < fixed[...100]` fails in the final table. -/
theorem c4_counterexample :
    hasKey [(⟨cascoStr, some basicStr, some 100⟩, 20), (⟨cascoStr, some basicStr, some 200⟩, 20)]
      ⟨cascoStr, some basicStr, some 100⟩ = true ∧
    hasKey [(⟨cascoStr, some basicStr, some 100⟩, 20), (⟨cascoStr, some basicStr, some 200⟩, 20)]
      ⟨cascoStr, some basicStr, some 200⟩ = true ∧
    ¬ (price (fixKeyed [(⟨cascoStr, some basicStr, some 100⟩, 20),
          (⟨cascoStr, some basicStr, some 200⟩, 20)]).1 ⟨cascoStr, some basicStr, some 200⟩ <
        price (fixKeyed [(⟨cascoStr, some basicStr, some 100⟩, 20),
          (⟨cascoStr, some basicStr, some 200⟩, 20)]).1 ⟨cascoStr, some basicStr, some 100⟩) := by
  decide

/-- C8 (corrected).  As stated — for every parsing input the output has the
same key set and `issues == []` implies the table is unchanged — the claim
is false: parsed keys are re-serialized in canonical form, so a
non-canonical raw key (e.g. a deductible with a leading zero) silently
changes the key set with an empty issue list.  The amended statement holds:
for every raw table with duplicate-free keys each of which is the canonical
serialization of its parsed key, the call succeeds, the output key sequence
equals the input key sequence, and an empty issue list implies the output
table equals the input exactly. -/
theorem c8_keyset_preserved (R : List (Str × ℚ))
    (hcanon : ∀ s ∈ R.map Prod.fst, Option.map toStrD (fromStr s) = some s)
    (hnd : (R.map Prod.fst).Nodup) :
    ∃ F I, validate R = .ok (F, I) ∧ F.map Prod.fst = R.map Prod.fst ∧ (I = [] → F = R) := by
  obtain ⟨K, hK, hser⟩ := parseTableGo_canonical R [] hcanon hnd (by simp)
  rw [List.nil_append] at hK
  have hinv := parseTableGo_invariant R [] K (by simp) (by simp) hK
  refine ⟨serializeTable (fixKeyed K).1, (fixKeyed K).2, ?_, ?_, ?_⟩
  · unfold validate parseTable
    simp only [hK]
  · calc (serializeTable (fixKeyed K).1).map Prod.fst
        = ((fixKeyed K).1.map Prod.fst).map toStrD := serializeTable_mapFst _
      _ = (K.map Prod.fst).map toStrD := by rw [fixKeyed_mapFst]
      _ = (serializeTable K).map Prod.fst := (serializeTable_mapFst _).symm
      _ = R.map Prod.fst := by rw [hser]
  · intro hI
    rw [fixKeyed_fst_of_no_issues K hinv.1 hI, hser]

/-- C8 witness: on `{mtpl: 400, limited_casco_basic_100: 800}` (canonical,
duplicate-free keys) the call succeeds with the same key sequence and, the
issue list being empty, the unchanged table. -/
theorem c8_witness :
    ∃ F I, validate [("mtpl".data, 400), ("limited_casco_basic_100".data, 800)] = .ok (F, I) ∧
      F.map Prod.fst =
        ([("mtpl".data, (400 : ℚ)), ("limited_casco_basic_100".data, 800)]).map Prod.fst ∧
      (I = [] → F = [("mtpl".data, 400), ("limited_casco_basic_100".data, 800)]) :=
  c8_keyset_preserved [("mtpl".data, 400), ("limited_casco_basic_100".data, 800)]
    (by decide) (by decide)

/-- C8 counterexample: the raw key "casco_basic_010" parses (Python
`int("010") = 10`) but is returned as "casco_basic_10" with an empty issue
list — the key set silently changes, refuting the claim as stated. -/
theorem c8_counterexample :
    validate [("casco_basic_010".data, 100)] = .ok ([("casco_basic_10".data, 100)], []) ∧
    ("casco_basic_10".data : Str) ≠ "casco_basic_010".data := by
  constructor
  · decide
  · decide

/-- C9 (confirmed).  Frame property: a key that is never the right-hand
side of any generated constraint and is never rewritten by the deductible
normalization keeps its input value exactly in the fixed table, and never
appears in the issue log (in particular a compact key priced above its
sibling basic key: compact-versus-basic ordering is never enforced). -/
theorem c9_untouched_base_frame (T : Table) (k : PriceKey)
    (hnr : ∀ c ∈ buildConstraints (applyDeductibleStructure T).1, c.right ≠ k)
    (hnn : ∀ e ∈ (applyDeductibleStructure T).2, e.key ≠ k) :
    price (fixKeyed T).1 k = price T k ∧ ∀ e ∈ (fixKeyed T).2, e.key ≠ k := by
  constructor
  · have h1 : price (fixKeyed T).1 k = price (applyDeductibleStructure T).1 k :=
      repairFold_price_frozen _ _ k (fun c hc => hnr c (mem_sortByRank.mp hc))
    rw [h1]
    exact applyDeductibleStructure_frozen T k hnn
  · intro e he
    have he' : e ∈ ((sortByRank (buildConstraints (applyDeductibleStructure T).1)).foldl
        repairStep (applyDeductibleStructure T)).2 := he
    rcases repairFold_issue_keys _ _ e he' with hin | ⟨c, hc, hk⟩
    · exact hnn e hin
    · rw [hk]
      exact hnr c (mem_sortByRank.mp hc)

/-- C9 witness: in `{casco_compact_100: 820, casco_basic_100: 800,
casco_comfort_100: 900, casco_premium_100: 1000}` the compact key (priced
above its sibling basic key) is never a constraint's right side and never
realigned, so it comes back at exactly 820 and stays out of the log. -/
theorem c9_witness :
    price (fixKeyed [(⟨cascoStr, some compactStr, some 100⟩, 820),
        (⟨cascoStr, some basicStr, some 100⟩, 800), (⟨cascoStr, some comfortStr, some 100⟩, 900),
        (⟨cascoStr, some premiumStr, some 100⟩, 1000)]).1 ⟨cascoStr, some compactStr, some 100⟩ =
      price [(⟨cascoStr, some compactStr, some 100⟩, 820),
        (⟨cascoStr, some basicStr, some 100⟩, 800), (⟨cascoStr, some comfortStr, some 100⟩, 900),
        (⟨cascoStr, some premiumStr, some 100⟩, 1000)] ⟨cascoStr, some compactStr, some 100⟩ ∧
    ∀ e ∈ (fixKeyed [(⟨cascoStr, some compactStr, some 100⟩, 820),
        (⟨cascoStr, some basicStr, some 100⟩, 800), (⟨cascoStr, some comfortStr, some 100⟩, 900),
        (⟨cascoStr, some premiumStr, some 100⟩, 1000)]).2,
      e.key ≠ ⟨cascoStr, some compactStr, some 100⟩ :=
  c9_untouched_base_frame _ _ (by decide) (by decide)

end Ominimo
